import Mathlib

/-!
# Verification of `wifi/scheme.py`

A shallow embedding of the configuration-file parser/serializer, option
derivation, store operations and activation-output parsing of
`wifi/scheme.py`, together with theorems settling the specification claims.

Strings are modelled as `List Char` (`Str`).  All definitions mirror the
Python source line by line; character classes model Python's ASCII behaviour
(`\s`, `\w`, `str.strip`, `str.splitlines`), which coincides with Python on
the ASCII inputs handled throughout.
-/

namespace Wifi

/-- Python strings, modelled as lists of characters. -/
abbrev Str := List Char

/-- `String` literal to `Str` conversion used for embedding Python literals. -/
def str (s : String) : Str := s.data

/-- Python whitespace (`\s`, `str.isspace`) restricted to ASCII:
space, tab, newline, carriage return, vertical tab, form feed. -/
def pySpace (c : Char) : Bool :=
  c = ' ' || c = '\t' || c = '\n' || c = '\r' || c = '\x0b' || c = '\x0c'

/-- Python word characters (`\w`) restricted to ASCII: `[a-zA-Z0-9_]`. -/
def pyWord (c : Char) : Bool :=
  c.isAlpha || c.isDigit || c = '_'

/-- Python line-break characters recognised by `str.splitlines` (ASCII part). -/
def pyBreak (c : Char) : Bool :=
  c = '\n' || c = '\r' || c = '\x0b' || c = '\x0c' ||
  c = '\x1c' || c = '\x1d' || c = '\x1e' || c = '\x85'

/-- Scan of `str.splitlines()`: the flag records whether the previous
character was a `'\r'`, so that the `'\n'` of a `"\r\n"` pair does not
produce a second break. -/
def splitlinesGo : Str → Bool → List Str
  | [], _ => []
  | c :: rest, afterCR =>
    if c = '\n' then
      if afterCR then splitlinesGo rest false
      else [] :: splitlinesGo rest false
    else if c = '\r' then [] :: splitlinesGo rest true
    else if pyBreak c then [] :: splitlinesGo rest false
    else
      match splitlinesGo rest false with
      | [] => [[c]]
      | l :: ls => (c :: l) :: ls

/-- Python `str.splitlines()`: split at line-break characters, treating
`"\r\n"` as a single break; a trailing break yields no extra empty line. -/
def splitlines (s : Str) : List Str := splitlinesGo s false

/-- Python `str.split("\n")`: split at `'\n'` only, keeping a trailing empty
piece.  This is the line decomposition relevant for `re.MULTILINE` `^`,
which matches at the string start and after each `'\n'`. -/
def splitNL : Str → List Str
  | [] => [[]]
  | c :: rest =>
    if c = '\n' then [] :: splitNL rest
    else
      match splitNL rest with
      | [] => [[c]]
      | l :: ls => (c :: l) :: ls

/-- Python file-line iteration (`for line in f`): split after each `'\n'`,
keeping the terminator; a final piece without `'\n'` is kept as well. -/
def linesKeepNL : Str → List Str
  | [] => []
  | c :: rest =>
    if c = '\n' then ['\n'] :: linesKeepNL rest
    else
      match linesKeepNL rest with
      | [] => [[c]]
      | l :: ls => (c :: l) :: ls

/-- Python `str.strip()`: remove leading and trailing whitespace. -/
def pstrip (s : Str) : Str :=
  ((s.dropWhile pySpace).reverse.dropWhile pySpace).reverse

/-- `s.startswith(p)` for `Str`. -/
def hasPfx (s p : Str) : Bool :=
  match s, p with
  | _, [] => true
  | [], _ :: _ => false
  | c :: cs, d :: ds => c = d && hasPfx cs ds

/-- If `p` is a literal prefix of `s`, return the remainder of `s`,
otherwise `none`.  Used to embed literal parts of the regexes. -/
def stripLit : Str → Str → Option Str
  | [], s => some s
  | _ :: _, [] => none
  | d :: ds, c :: cs => if c = d then stripLit ds cs else none

/-- Greedy `p+` of a regex: the maximal non-empty run of characters
satisfying `p`, with the remainder; `none` if the first character fails. -/
def takeWhile1 (p : Char → Bool) (s : Str) : Option (Str × Str) :=
  let t := s.takeWhile p
  if t = [] then none else some (t, s.dropWhile p)

/-- Internal state of the `re.sub(r"\s{2,}", " ", s)` scan: outside a
whitespace run, after exactly one whitespace character `c`, or inside a
run of length at least two (to be replaced by a single space). -/
inductive WsSt : Type
  | clean : WsSt
  | pend : Char → WsSt
  | run : WsSt

/-- Character-by-character scan implementing `re.sub(r"\s{2,}", " ", s)`:
each maximal run of two or more whitespace characters is replaced by a
single space; lone whitespace characters are kept as they are. -/
def collapseGo : Str → WsSt → Str
  | [], .clean => []
  | [], .pend c => [c]
  | [], .run => [' ']
  | c :: rest, .clean =>
    if pySpace c then collapseGo rest (.pend c) else c :: collapseGo rest .clean
  | c :: rest, .pend p =>
    if pySpace c then collapseGo rest .run
    else p :: c :: collapseGo rest .clean
  | c :: rest, .run =>
    if pySpace c then collapseGo rest .run
    else ' ' :: c :: collapseGo rest .clean

/-- Python `re.sub(r"\s{2,}", " ", s)`. -/
def collapseWs (s : Str) : Str := collapseGo s .clean

/-- Python `s.split(" ", 1)` restricted to the two-piece outcome: split at
the first space; `none` when `s` contains no space (in which case the
source's two-target unpacking raises `ValueError`). -/
def splitOnce : Str → Option (Str × Str)
  | [] => none
  | c :: rest =>
    if c = ' ' then some ([], rest)
    else (splitOnce rest).map (fun p => (c :: p.1, p.2))

/-- One option line of a block, embedded from
`re.sub(r"\s{2,}", " ", lines.pop(0).strip()).split(" ", 1)`:
strip, collapse interior whitespace runs, split at the first space into
key and value.  `none` models the `ValueError` of unpacking a
single-element split result. -/
def processOptionLine (l : Str) : Option (Str × Str) :=
  splitOnce (collapseWs (pstrip l))

/-- Ordered multi-valued option mapping: Python's insertion-ordered `dict`
from option key to the list of values accumulated for that key. -/
abbrev OptDict := List (Str × List Str)

/-- Python `key in options` (`dict` key membership). -/
def hasKey (o : OptDict) (k : Str) : Bool :=
  o.any (fun kv => decide (kv.1 = k))

/-- Python `options[key]` (`dict` lookup; `none` models `KeyError`). -/
def lookupKey (o : OptDict) (k : Str) : Option (List Str) :=
  match o with
  | [] => none
  | kv :: rest => if kv.1 = k then some kv.2 else lookupKey rest k

/-- `if not key in options: options[key] = []` followed by
`options[key].append(value)`: append `v` to the existing entry for `k`,
or insert a fresh entry `(k, [v])` at the end.  Keys reachable from
parsing are unique, as in a Python `dict`. -/
def addOption (o : OptDict) (k : Str) (v : Str) : OptDict :=
  if hasKey o k then
    o.map (fun kv => if kv.1 = k then (kv.1, kv.2 ++ [v]) else kv)
  else o ++ [(k, [v])]

/-- Folding `addOption` over a list of parsed `(key, value)` pairs in
encounter order. -/
def addAll (o : OptDict) (ps : List (Str × Str)) : OptDict :=
  ps.foldl (fun acc p => addOption acc p.1 p.2) o

/-- One saved interface configuration: the fields of the Python `Scheme`
object (`interface`, `name`, `type`, `options`). -/
structure Scheme : Type where
  interface : Str
  name : Str
  type : Str
  options : OptDict
deriving DecidableEq, Repr

/-- `Scheme.iface`: `"{interface}-{name}"`. -/
def Scheme.ifaceId (s : Scheme) : Str :=
  s.interface ++ '-' :: s.name

/-- `Scheme.__str__`: the `/etc/network/interfaces` text of a scheme — the
header `iface <interface>-<name> inet <type>`, one 4-space-indented
`<key> <value>` line per value in key-insertion and value order, and a
trailing newline. -/
def Scheme.render (s : Scheme) : Str :=
  str "iface " ++ s.interface ++ '-' :: s.name ++ str " inet " ++ s.type ++
    (s.options.flatMap (fun kv =>
      kv.2.map (fun v => str "\n    " ++ kv.1 ++ ' ' :: v))).flatten ++
    ['\n']

/-- Tail of `schemeMatch` after the interface group: `\s+inet\s+(\w+)`,
returning the captured type. -/
def schemeMatchTail (r : Str) : Option Str :=
  match takeWhile1 pySpace r with
  | none => none
  | some (_, r7) =>
    match stripLit (str "inet") r7 with
    | none => none
    | some r8 =>
      match takeWhile1 pySpace r8 with
      | none => none
      | some (_, r9) =>
        match takeWhile1 pyWord r9 with
        | none => none
        | some (ty, _) => some ty

/-- The regex
`iface\s+(?P<interface>wlan\d?)(?:-(?P<name>\w+))?\s+inet\s+(?P<type>\w+)`
applied with `re.match` (anchored at the line start, prefix match).  Every
quantifier in the pattern is effectively deterministic (each greedy choice
is followed by a character class disjoint from the repeated one), so the
backtracking regex is embedded as a maximal-munch parser. -/
def schemeMatch (l : Str) : Option (Str × Option Str × Str) :=
  match stripLit (str "iface") l with
  | none => none
  | some r1 =>
    match takeWhile1 pySpace r1 with
    | none => none
    | some (_, r2) =>
      match stripLit (str "wlan") r2 with
      | none => none
      | some r3 =>
        let dr :=
          match r3 with
          | c :: rest => if c.isDigit then ([c], rest) else ([], r3)
          | [] => (([] : Str), ([] : Str))
        let iface := str "wlan" ++ dr.1
        match dr.2 with
        | c :: r5 =>
          if c = '-' then
            match takeWhile1 pyWord r5 with
            | none => none
            | some (nm, r6) =>
              (schemeMatchTail r6).map (fun ty => (iface, some nm, ty))
          else (schemeMatchTail (c :: r5)).map (fun ty => (iface, none, ty))
        | [] => (schemeMatchTail []).map (fun ty => (iface, none, ty))

/-- The block currently being accumulated by the parser: header fields plus
the options gathered from the indented lines consumed so far. -/
structure CurBlock : Type where
  i : Str
  n : Str
  t : Str
  opts : OptDict

/-- Close the current block: `scheme_class(interface, scheme, type, options)`. -/
def CurBlock.close (c : CurBlock) : Scheme :=
  ⟨c.i, c.n, c.t, c.opts⟩

/-- Top-of-loop handling of one line of `extract_schemes`: skip empty and
`#` lines, try `scheme_re.match`, and skip a header whose optional
`-<name>` group is absent (`if not scheme or not interface: continue`).
Returns the freshly opened block when the header matches with a name. -/
def stepTop (line : Str) : Option CurBlock :=
  if line = [] then none
  else if line.head? = some '#' then none
  else
    match schemeMatch line with
    | some (i, some n, t) => if n = [] || i = [] then none else some ⟨i, n, t, []⟩
    | _ => none

/-- The line-consuming loop of `extract_schemes`.  The Python source uses an
outer `while lines:` loop with an inner
`while lines and lines[0].startswith(" "):` loop that fills the options of
the block opened by the last header match; this single pass carries the
open block (if any) as explicit state, closing and emitting it at the
first non-indented line or at end of input, exactly as the nested loops
do.  `none` models the `ValueError` raised for an indented line with no
space after whitespace collapsing. -/
def extractLoop : List Str → Option CurBlock → Option (List Scheme)
  | [], none => some []
  | [], some c => some [c.close]
  | l :: rest, some c =>
    if l.head? = some ' ' then
      match processOptionLine l with
      | none => none
      | some kv => extractLoop rest (some ⟨c.i, c.n, c.t, addOption c.opts kv.1 kv.2⟩)
    else
      (extractLoop rest (stepTop l)).map (fun ss => c.close :: ss)
  | l :: rest, none => extractLoop rest (stepTop l)

/-- `extract_schemes(interfaces)`: split into lines and run the scanning
loop.  `none` models the `ValueError` described at `extractLoop`. -/
def extract_schemes (text : Str) : Option (List Scheme) :=
  extractLoop (splitlines text) none

/-- A discovered network as consumed by `configuration`: the `ssid`,
`encrypted` and `encryption_type` fields of a `Cell`. -/
structure Cell : Type where
  ssid : Str
  encrypted : Bool
  encryption_type : Str
deriving DecidableEq

/-- `configuration(cell, passkey)`: derive the option mapping for a cell.
`none` models the `NotImplementedError` for unsupported encryption
families.  The parameter `pbkdf` abstracts
`PBKDF2(passkey, cell.ssid, 4096).hexread(32)` from the external `pbkdf2`
library (an opaque collaborator per the spec); it is unused outside the
WPA branch. -/
def configuration (pbkdf : Str → Str → Str) (cell : Cell) (passkey : Str) :
    Option (List (Str × Str)) :=
  if !cell.encrypted then
    some [(str "wireless-essid", cell.ssid), (str "wireless-channel", str "auto")]
  else if hasPfx cell.encryption_type (str "wpa") then
    let pk := if passkey.length ≠ 64 then pbkdf passkey cell.ssid else passkey
    some [(str "wpa-ssid", cell.ssid), (str "wpa-psk", pk),
          (str "wireless-channel", str "auto")]
  else if cell.encryption_type = str "wep" then
    let pk :=
      if passkey.length ∈ ([5, 13, 16, 29] : List Nat) then str "s:" ++ passkey
      else passkey
    some [(str "wireless-essid", cell.ssid), (str "wireless-key", pk)]
  else none

/-- `Scheme.as_args`: `["<interface>=<interface>-<name>"]` followed by the
flattened `("-o", "key=value")` pairs produced by
`itertools.chain.from_iterable` over keys in insertion order and values
in per-key order. -/
def Scheme.as_args (s : Scheme) : List Str :=
  (s.interface ++ '=' :: s.ifaceId) ::
    (s.options.flatMap (fun kv =>
      kv.2.map (fun v => [str "-o", kv.1 ++ '=' :: v]))).flatten

/-- The `Connection` object: the scheme that produced it and the bound
`ip_address`. -/
structure Connection : Type where
  scheme : Scheme
  ip_address : Str
deriving DecidableEq

/-- Errors raised by `Scheme.parse_ifup_output`:
`connectionError` is the `ConnectionError("Failed to connect to ...")` of
the DHCP branch (the spec's `NoAddressBound`); `keyError` and `indexError`
are the untyped lookup failures of `self.options["address"][0]` in the
non-DHCP branch. -/
inductive ActErr : Type
  | connectionError : ActErr
  | keyError : ActErr
  | indexError : ActErr
deriving DecidableEq

/-- Match of `bound_ip_re = ^bound to (?P<ip_address>\S+)` at the start of
one line: the literal prefix `"bound to "` followed by a non-empty maximal
run of non-whitespace characters. -/
def boundIpOfLine (l : Str) : Option Str :=
  match stripLit (str "bound to ") l with
  | none => none
  | some rest =>
    let tok := rest.takeWhile (fun c => !pySpace c)
    if tok = [] then none else some tok

/-- First line (in order) on which `boundIpOfLine` matches. -/
def firstBound : List Str → Option Str
  | [] => none
  | l :: ls =>
    match boundIpOfLine l with
    | some ip => some ip
    | none => firstBound ls

/-- `bound_ip_re.search(output)` with `re.MULTILINE`: in multiline mode `^`
matches at the string start and after each `'\n'`, and `search` returns
the leftmost match, i.e. the first matching line. -/
def searchBoundIp (output : Str) : Option Str :=
  firstBound (splitNL output)

/-- `Scheme.parse_ifup_output(output)`: for a `"dhcp"`-type scheme, search
the output for the bound address (raising `ConnectionError` when absent);
otherwise ignore the output and take `self.options["address"][0]`
(raising `KeyError` or `IndexError` when absent or empty). -/
def Scheme.parse_ifup_output (s : Scheme) (output : Str) : Except ActErr Connection :=
  if s.type = str "dhcp" then
    match searchBoundIp output with
    | some ip => .ok ⟨s, ip⟩
    | none => .error .connectionError
  else
    match lookupKey s.options (str "address") with
    | none => .error .keyError
    | some [] => .error .indexError
    | some (v :: _) => .ok ⟨s, v⟩

/-- The two backing locations of the store: the text of the primary
`interfaces` file and the regular files of the `interfaces.d` directory
as `(filename, content)` pairs in directory-listing order. -/
structure StoreState : Type where
  primary : Str
  dirFiles : List (Str × Str)
deriving DecidableEq

/-- The primary-file rewrite loop of `Scheme.delete`: iterate over the
lines of the file (terminators kept), maintaining a `skip` flag — a blank
line clears it, a line whose stripped text starts with the header
`iface <interface>-<name> inet <type>` sets it — and keep exactly the
lines at which the updated flag is clear. -/
def deleteLoop (hdr : Str) : List Str → Bool → Str
  | [], _ => []
  | line :: rest, skip =>
    let s := pstrip line
    let skip' := if s = [] then false else if hasPfx s hdr then true else skip
    (if skip' then [] else line) ++ deleteLoop hdr rest skip'

/-- Header prefix used by `Scheme.delete`:
`"iface %s-%s inet %s" % (interface, name, type)`. -/
def Scheme.deleteHdr (s : Scheme) : Str :=
  str "iface " ++ s.interface ++ '-' :: s.name ++ str " inet " ++ s.type

/-- The new primary-file content produced by `Scheme.delete`. -/
def deleteContent (s : Scheme) (content : Str) : Str :=
  deleteLoop s.deleteHdr (linesKeepNL content) false

/-- `Scheme.delete`: rewrite the primary file through `deleteLoop` and
remove the override-directory file named `<interface>-<name>` if present. -/
def Scheme.delete (s : Scheme) (st : StoreState) : StoreState :=
  { primary := deleteContent s st.primary,
    dirFiles := st.dirFiles.filter (fun kv => decide (kv.1 ≠ s.ifaceId)) }

/-- `Scheme.all()`: the schemes parsed from the primary file followed by
those parsed from each override-directory file in listing order.  `none`
propagates a parse `ValueError`. -/
def allSchemes (st : StoreState) : Option (List Scheme) := do
  let a ← extract_schemes st.primary
  let bs ← st.dirFiles.mapM (fun kv => extract_schemes kv.2)
  return a ++ bs.flatten

/-- `Scheme.find(interface, name)`: the first scheme matching both fields,
or `none` for an absent result.  The outer `Option` propagates a parse
`ValueError`. -/
def findScheme (st : StoreState) (i n : Str) : Option (Option Scheme) :=
  (allSchemes st).map
    (fun ss => ss.find? (fun s => decide (s.interface = i) && decide (s.name = n)))

/-- `open(iface_file, "w")` followed by `f.write`: truncate an existing
directory entry of that name or create a fresh one at the end. -/
def writeDirFile (st : StoreState) (nm content : Str) : StoreState :=
  if st.dirFiles.any (fun kv => decide (kv.1 = nm)) then
    { st with dirFiles := st.dirFiles.map (fun kv => if kv.1 = nm then (kv.1, content) else kv) }
  else
    { st with dirFiles := st.dirFiles ++ [(nm, content)] }

/-- Errors surfaced by `Scheme.save`: the
`RuntimeError("... already exists and overwrite is forbidden")` (the
spec's `AlreadyExists`), or a propagated parse `ValueError`. -/
inductive SaveErr : Type
  | alreadyExists : SaveErr
  | parseFailure : SaveErr
deriving DecidableEq

/-- `Scheme.save(allow_overwrite)`: look up an existing scheme with the
same interface and name; raise when one exists and overwriting is
forbidden; otherwise delete it first when present, then write the
rendered text to the override-directory file `<interface>-<name>`. -/
def Scheme.save (s : Scheme) (allow_overwrite : Bool) (st : StoreState) :
    Except SaveErr StoreState :=
  match findScheme st s.interface s.name with
  | none => .error .parseFailure
  | some existing =>
    match existing with
    | some ex =>
      if !allow_overwrite then .error .alreadyExists
      else .ok (writeDirFile (ex.delete st) s.ifaceId s.render)
    | none => .ok (writeDirFile st s.ifaceId s.render)

/-! ## Well-formedness predicates

Decidable predicates over the data model, used as hypotheses of the
round-trip and parsing theorems.  They describe the strings on which the
text codec is injective: a `wlan`-family interface token, word-character
names and types, space-free keys and values without line breaks, leading
or trailing whitespace, or interior whitespace runs of length two or
more. -/

/-- No two adjacent Python-whitespace characters. -/
def noAdjWs : Str → Bool
  | [] => true
  | [_] => true
  | c1 :: c2 :: rest => !(pySpace c1 && pySpace c2) && noAdjWs (c2 :: rest)

/-- A non-empty string of Python word characters (`\w+`). -/
def wordStr (s : Str) : Bool :=
  !s.isEmpty && s.all pyWord

/-- A token matched exactly by `wlan\d?`: `"wlan"` optionally followed by
one decimal digit. -/
def wlanForm (i : Str) : Bool :=
  match stripLit (str "wlan") i with
  | some [] => true
  | some [d] => d.isDigit
  | _ => false

/-- An option key that the codec round-trips: non-empty, no whitespace and
no line-break characters. -/
def goodKey (k : Str) : Bool :=
  !k.isEmpty && k.all (fun c => !pySpace c && !pyBreak c)

/-- An option value that the codec round-trips: non-empty, no line-break
characters, no two adjacent whitespace characters, and no leading or
trailing whitespace. -/
def goodVal (v : Str) : Bool :=
  !v.isEmpty && v.all (fun c => !pyBreak c) && noAdjWs v &&
  (match v.head? with | some c => !pySpace c | none => true) &&
  (match v.getLast? with | some c => !pySpace c | none => true)

/-- A scheme whose rendered text the parser maps back to itself: interface
matched by `wlan\d?`, word-character name and type, a non-empty options
mapping with pairwise-distinct keys, and well-formed keys and values with
at least one value per key. -/
def goodScheme (s : Scheme) : Bool :=
  wlanForm s.interface && wordStr s.name && wordStr s.type &&
  !s.options.isEmpty &&
  decide ((s.options.map Prod.fst).Nodup) &&
  s.options.all (fun kv => goodKey kv.1 && !kv.2.isEmpty && kv.2.all goodVal)

/-- The flattened `(key, value)` pairs of an options mapping, in key and
per-key value order: the iteration order of both `Scheme.__str__` and
`Scheme.as_args`. -/
def flatPairs (o : OptDict) : List (Str × Str) :=
  o.flatMap (fun kv => kv.2.map (fun v => (kv.1, v)))

/-- The rendered option line of one `(key, value)` pair, without its
leading newline. -/
def optLine (p : Str × Str) : Str :=
  str "    " ++ p.1 ++ ' ' :: p.2

/-- The values attached to key `k` by a pair list, in encounter order. -/
def valuesOf (k : Str) (ps : List (Str × Str)) : List Str :=
  (ps.filter (fun p => decide (p.1 = k))).map Prod.snd

/-! ## String-level lemmas -/

theorem stripLit_pfx (p r : Str) : stripLit p (p ++ r) = some r := by
  induction p with
  | nil => rfl
  | cons c cs ih => simp [stripLit, ih]

theorem eq_of_stripLit {p s r : Str} (h : stripLit p s = some r) : s = p ++ r := by
  induction p generalizing s with
  | nil =>
    simp only [stripLit, Option.some.injEq] at h
    simpa using h
  | cons c cs ih =>
    cases s with
    | nil => simp [stripLit] at h
    | cons x xs =>
      simp only [stripLit] at h
      split at h
      · next hx => simpa [hx] using ih h
      · exact absurd h (by simp)

theorem takeWhile_all {p : Char → Bool} {a : Str} (h : ∀ c ∈ a, p c = true) :
    a.takeWhile p = a := by
  induction a with
  | nil => rfl
  | cons c cs ih =>
    simp only [List.takeWhile_cons, h c (by simp), if_true]
    rw [ih (fun x hx => h x (by simp [hx]))]

theorem dropWhile_all {p : Char → Bool} {a : Str} (h : ∀ c ∈ a, p c = true) :
    a.dropWhile p = [] := by
  induction a with
  | nil => rfl
  | cons c cs ih =>
    simp only [List.dropWhile_cons, h c (by simp), if_true]
    exact ih (fun x hx => h x (by simp [hx]))

theorem takeWhile_append_all {p : Char → Bool} {a : Str} (b : Str)
    (h : ∀ c ∈ a, p c = true) :
    (a ++ b).takeWhile p = a ++ b.takeWhile p := by
  induction a with
  | nil => rfl
  | cons c cs ih =>
    simp only [List.cons_append, List.takeWhile_cons, h c (by simp), if_true]
    rw [ih (fun x hx => h x (by simp [hx]))]

theorem dropWhile_append_all {p : Char → Bool} {a : Str} (b : Str)
    (h : ∀ c ∈ a, p c = true) :
    (a ++ b).dropWhile p = b.dropWhile p := by
  induction a with
  | nil => rfl
  | cons c cs ih =>
    simp only [List.cons_append, List.dropWhile_cons, h c (by simp), if_true]
    exact ih (fun x hx => h x (by simp [hx]))

theorem takeWhile1_append {p : Char → Bool} {a : Str} {x : Char} (b : Str)
    (ha : ∀ c ∈ a, p c = true) (hne : a ≠ []) (hx : p x = false) :
    takeWhile1 p (a ++ x :: b) = some (a, x :: b) := by
  unfold takeWhile1
  rw [takeWhile_append_all _ ha, dropWhile_append_all _ ha]
  simp [List.takeWhile_cons, List.dropWhile_cons, hx, hne]

theorem splitlines_append {a : Str} (r : Str) (h : ∀ c ∈ a, pyBreak c = false) :
    splitlines (a ++ '\n' :: r) = a :: splitlines r := by
  induction a with
  | nil =>
    show splitlinesGo ('\n' :: r) false = [] :: splitlines r
    rw [splitlinesGo, if_pos rfl, if_neg (by simp)]
    rfl
  | cons c cs ih =>
    have hc : pyBreak c = false := h c (by simp)
    have hcn : ¬c = '\n' := by
      intro hcn; rw [hcn] at hc; simp [pyBreak] at hc
    have hcr : ¬c = '\r' := by
      intro hcr; rw [hcr] at hc; simp [pyBreak] at hc
    have hrec := ih (fun x hx => h x (by simp [hx]))
    show splitlinesGo (c :: (cs ++ '\n' :: r)) false = (c :: cs) :: splitlines r
    rw [splitlinesGo, if_neg hcn, if_neg hcr, if_neg (by simp [hc])]
    rw [show splitlinesGo (cs ++ '\n' :: r) false = splitlines (cs ++ '\n' :: r) from rfl]
    rw [hrec]

theorem splitlines_single {a : Str} (h : ∀ c ∈ a, pyBreak c = false) :
    splitlines (a ++ ['\n']) = [a] := by
  have h2 := splitlines_append [] h
  rw [show splitlines [] = [] from rfl] at h2
  exact h2

theorem pstrip_ws_append {sp : Str} (a : Str) (h : ∀ c ∈ sp, pySpace c = true) :
    pstrip (sp ++ a) = pstrip a := by
  unfold pstrip
  rw [dropWhile_append_all _ h]

theorem dropWhile_eq_self {p : Char → Bool} {a : Str} {c : Char}
    (hh : a.head? = some c) (hc : p c = false) : a.dropWhile p = a := by
  cases a with
  | nil => rfl
  | cons x xs =>
    simp only [List.head?_cons, Option.some.injEq] at hh
    subst hh
    simp [List.dropWhile_cons, hc]

theorem pstrip_eq_self {a : Str} {c d : Char}
    (hh : a.head? = some c) (hc : pySpace c = false)
    (hl : a.getLast? = some d) (hd : pySpace d = false) : pstrip a = a := by
  unfold pstrip
  rw [dropWhile_eq_self hh hc]
  rw [dropWhile_eq_self (by rw [List.head?_reverse]; exact hl) hd]
  exact List.reverse_reverse a

theorem noAdjWs_tail {c : Char} {l : Str} (h : noAdjWs (c :: l) = true) :
    noAdjWs l = true := by
  cases l with
  | nil => rfl
  | cons d ds => simp only [noAdjWs, Bool.and_eq_true] at h; exact h.2

theorem noAdjWs_cons {c : Char} {l : Str} (hc : pySpace c = false)
    (h : noAdjWs l = true) : noAdjWs (c :: l) = true := by
  cases l with
  | nil => rfl
  | cons d ds => simp [noAdjWs, hc, h]

theorem noAdjWs_cons_nonws_head {c : Char} {l : Str} {x : Char}
    (hl : l.head? = some x) (hx : pySpace x = false)
    (h : noAdjWs l = true) : noAdjWs (c :: l) = true := by
  cases l with
  | nil => rfl
  | cons d ds =>
    simp only [List.head?_cons, Option.some.injEq] at hl
    subst hl
    simp [noAdjWs, hx, h]

theorem noAdjWs_append {a b : Str} (ha : ∀ c ∈ a, pySpace c = false)
    (hb : noAdjWs b = true) : noAdjWs (a ++ b) = true := by
  induction a with
  | nil => simpa using hb
  | cons c cs ih =>
    have hc : pySpace c = false := ha c (by simp)
    have hrec := ih (fun x hx => ha x (by simp [hx]))
    cases cs with
    | nil => exact noAdjWs_cons hc hrec
    | cons d ds =>
      simp only [List.cons_append] at hrec ⊢
      simp [noAdjWs, hc, hrec]

theorem collapseGo_clean_of_noAdjWs :
    ∀ (n : Nat) (s : Str), s.length ≤ n → noAdjWs s = true → collapseGo s .clean = s := by
  intro n
  induction n with
  | zero =>
    intro s hs _
    rw [List.length_eq_zero.mp (Nat.le_zero.mp hs)]
    rfl
  | succ n ih =>
    intro s hs hn
    match s with
    | [] => rfl
    | [c] =>
      by_cases hc : pySpace c = true
      · simp [collapseGo, hc]
      · simp only [Bool.not_eq_true] at hc
        simp [collapseGo, hc]
    | c1 :: c2 :: rest =>
      simp only [noAdjWs, Bool.and_eq_true, Bool.not_eq_true'] at hn
      by_cases h1 : pySpace c1 = true
      · have h2 : pySpace c2 = false := by
          rcases hn with ⟨hpair, _⟩
          simpa [h1] using hpair
        simp only [collapseGo, h1, if_true]
        simp only [collapseGo, h2, Bool.false_eq_true, if_false]
        congr 1
        congr 1
        exact ih rest (by simp only [List.length_cons] at hs; omega)
          (noAdjWs_tail hn.2)
      · simp only [Bool.not_eq_true] at h1
        simp only [collapseGo, h1, Bool.false_eq_true, if_false]
        congr 1
        exact ih (c2 :: rest) (by simp only [List.length_cons] at hs ⊢; omega) hn.2

theorem collapseWs_of_noAdjWs {s : Str} (h : noAdjWs s = true) : collapseWs s = s :=
  collapseGo_clean_of_noAdjWs s.length s le_rfl h

theorem splitOnce_append {k : Str} (v : Str) (h : ∀ c ∈ k, ¬c = ' ') :
    splitOnce (k ++ ' ' :: v) = some (k, v) := by
  induction k with
  | nil => simp [splitOnce]
  | cons c cs ih =>
    have hc : ¬c = ' ' := h c (by simp)
    show splitOnce (c :: (cs ++ ' ' :: v)) = some (c :: cs, v)
    rw [splitOnce, if_neg hc, ih (fun x hx => h x (by simp [hx]))]
    rfl

theorem goodKey_spec {k : Str} (h : goodKey k = true) :
    k ≠ [] ∧ (∀ c ∈ k, pySpace c = false) ∧ (∀ c ∈ k, pyBreak c = false) := by
  simp only [goodKey, Bool.and_eq_true, Bool.not_eq_true', List.isEmpty_eq_false,
    List.all_eq_true] at h
  exact ⟨h.1, fun c hc => by simpa using (h.2 c hc).1, fun c hc => by simpa using (h.2 c hc).2⟩

theorem goodVal_spec {v : Str} (h : goodVal v = true) :
    v ≠ [] ∧ (∀ c ∈ v, pyBreak c = false) ∧ noAdjWs v = true ∧
    (∀ c, v.head? = some c → pySpace c = false) ∧
    (∀ c, v.getLast? = some c → pySpace c = false) := by
  simp only [goodVal, Bool.and_eq_true, Bool.not_eq_true', List.isEmpty_eq_false,
    List.all_eq_true] at h
  obtain ⟨⟨⟨⟨h1, h2⟩, h3⟩, h4⟩, h5⟩ := h
  refine ⟨h1, h2, h3, ?_, ?_⟩
  · intro c hc
    rw [hc] at h4
    simpa using h4
  · intro c hc
    rw [hc] at h5
    simpa using h5

theorem processOptionLine_render {k v : Str} (hk : goodKey k = true) (hv : goodVal v = true) :
    processOptionLine (optLine (k, v)) = some (k, v) := by
  obtain ⟨hk0, hkws, _⟩ := goodKey_spec hk
  obtain ⟨hv0, _, hvadj, hvh, hvl⟩ := goodVal_spec hv
  obtain ⟨kc, kcs, rfl⟩ := List.exists_cons_of_ne_nil hk0
  have hvlast : ∃ d, v.getLast? = some d := by
    obtain ⟨x, hx⟩ := Option.isSome_iff_exists.mp (List.getLast?_isSome.mpr hv0)
    exact ⟨x, hx⟩
  obtain ⟨d, hd⟩ := hvlast
  have hvhead : ∃ x, v.head? = some x := by
    obtain ⟨b, L, rfl⟩ := List.exists_cons_of_ne_nil hv0
    exact ⟨b, rfl⟩
  obtain ⟨x, hx⟩ := hvhead
  show splitOnce (collapseWs (pstrip (str "    " ++ ((kc :: kcs) ++ ' ' :: v)))) = _
  rw [pstrip_ws_append _ (by decide)]
  rw [pstrip_eq_self (c := kc) (d := d) (by simp) (hkws kc (by simp)) ?hlast (hvl d hd)]
  case hlast =>
    rw [List.getLast?_append]
    rw [show (' ' :: v).getLast? = some d by
      cases v with
      | nil => exact absurd rfl hv0
      | cons b L =>
        rw [show ' ' :: b :: L = [' '] ++ b :: L from rfl, List.getLast?_append]
        rw [show (b :: L).getLast? = some d from hd]
        rfl]
    rfl
  rw [collapseWs_of_noAdjWs ?hadj]
  case hadj =>
    refine noAdjWs_append hkws ?_
    exact noAdjWs_cons_nonws_head hx (hvh x hx) hvadj
  exact splitOnce_append v (fun c hc => by
    intro hsp
    have := hkws c hc
    rw [hsp] at this
    simp [pySpace] at this)


theorem str_iface6 : str "iface " = 'i' :: 'f' :: 'a' :: 'c' :: 'e' :: ' ' :: [] := rfl
theorem str_iface5 : str "iface" = 'i' :: 'f' :: 'a' :: 'c' :: 'e' :: [] := rfl
theorem str_wlan : str "wlan" = 'w' :: 'l' :: 'a' :: 'n' :: [] := rfl
theorem str_inet6 : str " inet " = ' ' :: 'i' :: 'n' :: 'e' :: 't' :: ' ' :: [] := rfl
theorem str_inet4 : str "inet" = 'i' :: 'n' :: 'e' :: 't' :: [] := rfl

theorem wordStr_spec {s : Str} (h : wordStr s = true) : s ≠ [] ∧ ∀ c ∈ s, pyWord c = true := by
  simp only [wordStr, Bool.and_eq_true, Bool.not_eq_true', List.isEmpty_eq_false,
    List.all_eq_true] at h
  exact h

theorem pyWord_no_ws {c : Char} (h : pyWord c = true) : pySpace c = false := by
  by_contra hc
  simp only [Bool.not_eq_false] at hc
  simp only [pySpace, Bool.or_eq_true, decide_eq_true_eq] at hc
  rcases hc with ((((h1 | h1) | h1) | h1) | h1) | h1 <;> subst h1 <;> simp [pyWord] at h

theorem takeWhile1_space_cons {x : Char} (b : Str) (hx : pySpace x = false) :
    takeWhile1 pySpace (' ' :: x :: b) = some ([' '], x :: b) := by
  have h := takeWhile1_append (p := pySpace) (a := [' ']) (x := x) b
    (by intro c hc; simp at hc; subst hc; decide) (by simp) hx
  simpa using h

theorem wlanForm_elim {i : Str} (h : wlanForm i = true) :
    i = str "wlan" ∨ ∃ d, d.isDigit = true ∧ i = str "wlan" ++ [d] := by
  unfold wlanForm at h
  cases hs : stripLit (str "wlan") i with
  | none => rw [hs] at h; simp at h
  | some r =>
    rw [hs] at h
    have hi := eq_of_stripLit hs
    match r with
    | [] => exact Or.inl (by simpa using hi)
    | [d] => exact Or.inr ⟨d, by simpa using h, hi⟩
    | _ :: _ :: _ => simp at h

theorem tw1_word_end {t : Str} (ht0 : t ≠ []) (htw : ∀ c ∈ t, pyWord c = true) :
    takeWhile1 pyWord t = some (t, []) := by
  unfold takeWhile1
  rw [takeWhile_all htw, dropWhile_all htw]
  simp [ht0]

theorem schemeMatchTail_eval {t : Str} (tc : Char) (tcs : Str) (htc : t = tc :: tcs)
    (htw : ∀ c ∈ t, pyWord c = true) :
    schemeMatchTail (' ' :: 'i' :: 'n' :: 'e' :: 't' :: ' ' :: t) = some t := by
  have ht0 : t ≠ [] := by rw [htc]; simp
  have htsp : pySpace tc = false := pyWord_no_ws (htw tc (by rw [htc]; simp))
  have e5 : takeWhile1 pySpace (' ' :: 'i' :: 'n' :: 'e' :: 't' :: ' ' :: t) =
      some ([' '], 'i' :: 'n' :: 'e' :: 't' :: ' ' :: t) :=
    takeWhile1_space_cons _ (by decide)
  have e6 : stripLit (str "inet") ('i' :: 'n' :: 'e' :: 't' :: ' ' :: t) = some (' ' :: t) := by
    have h := stripLit_pfx (str "inet") (' ' :: t)
    simpa [str_inet4] using h
  have e7 : takeWhile1 pySpace (' ' :: t) = some ([' '], t) := by
    rw [htc]
    exact takeWhile1_space_cons _ htsp
  have e8 := tw1_word_end ht0 htw
  simp only [schemeMatchTail, e5, e6, e7, e8]

theorem schemeMatch_header {i n t : Str}
    (hi : wlanForm i = true) (hn : wordStr n = true) (ht : wordStr t = true) :
    schemeMatch (str "iface " ++ i ++ ('-' :: n) ++ str " inet " ++ t) = some (i, some n, t) := by
  obtain ⟨hn0, hnw⟩ := wordStr_spec hn
  obtain ⟨ht0, htw⟩ := wordStr_spec ht
  obtain ⟨tc, tcs, htc⟩ := List.exists_cons_of_ne_nil ht0
  have e4 : takeWhile1 pyWord (n ++ ' ' :: 'i' :: 'n' :: 'e' :: 't' :: ' ' :: t) =
      some (n, ' ' :: 'i' :: 'n' :: 'e' :: 't' :: ' ' :: t) :=
    takeWhile1_append _ hnw hn0 (by decide)
  have etail := schemeMatchTail_eval tc tcs htc htw
  rcases wlanForm_elim hi with hwl | ⟨d, hd, hwl⟩
  · subst hwl
    have e1 : stripLit (str "iface")
        (str "iface " ++ str "wlan" ++ ('-' :: n) ++ str " inet " ++ t) =
        some (' ' :: 'w' :: 'l' :: 'a' :: 'n' :: '-' ::
          (n ++ ' ' :: 'i' :: 'n' :: 'e' :: 't' :: ' ' :: t)) := by
      have h := stripLit_pfx (str "iface")
        (' ' :: 'w' :: 'l' :: 'a' :: 'n' :: '-' ::
          (n ++ ' ' :: 'i' :: 'n' :: 'e' :: 't' :: ' ' :: t))
      rw [show str "iface " ++ str "wlan" ++ ('-' :: n) ++ str " inet " ++ t =
          str "iface" ++ (' ' :: 'w' :: 'l' :: 'a' :: 'n' :: '-' ::
            (n ++ ' ' :: 'i' :: 'n' :: 'e' :: 't' :: ' ' :: t)) by
        simp [str_iface6, str_iface5, str_wlan, str_inet6, List.cons_append,
          List.append_assoc]]
      exact h
    have e2 : takeWhile1 pySpace
        (' ' :: 'w' :: 'l' :: 'a' :: 'n' :: '-' ::
          (n ++ ' ' :: 'i' :: 'n' :: 'e' :: 't' :: ' ' :: t)) =
        some ([' '], 'w' :: 'l' :: 'a' :: 'n' :: '-' ::
          (n ++ ' ' :: 'i' :: 'n' :: 'e' :: 't' :: ' ' :: t)) :=
      takeWhile1_space_cons _ (by decide)
    have e3 : stripLit (str "wlan")
        ('w' :: 'l' :: 'a' :: 'n' :: '-' ::
          (n ++ ' ' :: 'i' :: 'n' :: 'e' :: 't' :: ' ' :: t)) =
        some ('-' :: (n ++ ' ' :: 'i' :: 'n' :: 'e' :: 't' :: ' ' :: t)) := by
      have h := stripLit_pfx (str "wlan")
        ('-' :: (n ++ ' ' :: 'i' :: 'n' :: 'e' :: 't' :: ' ' :: t))
      simpa [str_wlan] using h
    simp only [schemeMatch, e1, e2, e3, e4, etail]
    simp [str_wlan, e4, etail]
  · subst hwl
    have e1 : stripLit (str "iface")
        (str "iface " ++ (str "wlan" ++ [d]) ++ ('-' :: n) ++ str " inet " ++ t) =
        some (' ' :: 'w' :: 'l' :: 'a' :: 'n' :: d :: '-' ::
          (n ++ ' ' :: 'i' :: 'n' :: 'e' :: 't' :: ' ' :: t)) := by
      have h := stripLit_pfx (str "iface")
        (' ' :: 'w' :: 'l' :: 'a' :: 'n' :: d :: '-' ::
          (n ++ ' ' :: 'i' :: 'n' :: 'e' :: 't' :: ' ' :: t))
      rw [show str "iface " ++ (str "wlan" ++ [d]) ++ ('-' :: n) ++ str " inet " ++ t =
          str "iface" ++ (' ' :: 'w' :: 'l' :: 'a' :: 'n' :: d :: '-' ::
            (n ++ ' ' :: 'i' :: 'n' :: 'e' :: 't' :: ' ' :: t)) by
        simp [str_iface6, str_iface5, str_wlan, str_inet6, List.cons_append,
          List.append_assoc]]
      exact h
    have e2 : takeWhile1 pySpace
        (' ' :: 'w' :: 'l' :: 'a' :: 'n' :: d :: '-' ::
          (n ++ ' ' :: 'i' :: 'n' :: 'e' :: 't' :: ' ' :: t)) =
        some ([' '], 'w' :: 'l' :: 'a' :: 'n' :: d :: '-' ::
          (n ++ ' ' :: 'i' :: 'n' :: 'e' :: 't' :: ' ' :: t)) :=
      takeWhile1_space_cons _ (by decide)
    have e3 : stripLit (str "wlan")
        ('w' :: 'l' :: 'a' :: 'n' :: d :: '-' ::
          (n ++ ' ' :: 'i' :: 'n' :: 'e' :: 't' :: ' ' :: t)) =
        some (d :: '-' :: (n ++ ' ' :: 'i' :: 'n' :: 'e' :: 't' :: ' ' :: t)) := by
      have h := stripLit_pfx (str "wlan")
        (d :: '-' :: (n ++ ' ' :: 'i' :: 'n' :: 'e' :: 't' :: ' ' :: t))
      simpa [str_wlan] using h
    simp only [schemeMatch, e1, e2, e3, hd, if_true, e4, etail]
    simp [str_wlan, e4, etail]


theorem schemeMatch_noname {i t : Str}
    (hi : wlanForm i = true) (ht : wordStr t = true) :
    schemeMatch (str "iface " ++ i ++ str " inet " ++ t) = some (i, none, t) := by
  obtain ⟨ht0, htw⟩ := wordStr_spec ht
  obtain ⟨tc, tcs, htc⟩ := List.exists_cons_of_ne_nil ht0
  have etail := schemeMatchTail_eval tc tcs htc htw
  rcases wlanForm_elim hi with hwl | ⟨d, hd, hwl⟩
  · subst hwl
    have e1 : stripLit (str "iface")
        (str "iface " ++ str "wlan" ++ str " inet " ++ t) =
        some (' ' :: 'w' :: 'l' :: 'a' :: 'n' ::
          (' ' :: 'i' :: 'n' :: 'e' :: 't' :: ' ' :: t)) := by
      have h := stripLit_pfx (str "iface")
        (' ' :: 'w' :: 'l' :: 'a' :: 'n' :: (' ' :: 'i' :: 'n' :: 'e' :: 't' :: ' ' :: t))
      rw [show str "iface " ++ str "wlan" ++ str " inet " ++ t =
          str "iface" ++ (' ' :: 'w' :: 'l' :: 'a' :: 'n' ::
            (' ' :: 'i' :: 'n' :: 'e' :: 't' :: ' ' :: t)) by
        simp [str_iface6, str_iface5, str_wlan, str_inet6, List.cons_append,
          List.append_assoc]]
      exact h
    have e2 : takeWhile1 pySpace
        (' ' :: 'w' :: 'l' :: 'a' :: 'n' :: (' ' :: 'i' :: 'n' :: 'e' :: 't' :: ' ' :: t)) =
        some ([' '], 'w' :: 'l' :: 'a' :: 'n' :: (' ' :: 'i' :: 'n' :: 'e' :: 't' :: ' ' :: t)) :=
      takeWhile1_space_cons _ (by decide)
    have e3 : stripLit (str "wlan")
        ('w' :: 'l' :: 'a' :: 'n' :: (' ' :: 'i' :: 'n' :: 'e' :: 't' :: ' ' :: t)) =
        some (' ' :: 'i' :: 'n' :: 'e' :: 't' :: ' ' :: t) := by
      have h := stripLit_pfx (str "wlan") (' ' :: 'i' :: 'n' :: 'e' :: 't' :: ' ' :: t)
      simpa [str_wlan] using h
    simp only [schemeMatch, e1, e2, e3, etail]
    simp [str_wlan, etail]
  · subst hwl
    have e1 : stripLit (str "iface")
        (str "iface " ++ (str "wlan" ++ [d]) ++ str " inet " ++ t) =
        some (' ' :: 'w' :: 'l' :: 'a' :: 'n' :: d ::
          (' ' :: 'i' :: 'n' :: 'e' :: 't' :: ' ' :: t)) := by
      have h := stripLit_pfx (str "iface")
        (' ' :: 'w' :: 'l' :: 'a' :: 'n' :: d :: (' ' :: 'i' :: 'n' :: 'e' :: 't' :: ' ' :: t))
      rw [show str "iface " ++ (str "wlan" ++ [d]) ++ str " inet " ++ t =
          str "iface" ++ (' ' :: 'w' :: 'l' :: 'a' :: 'n' :: d ::
            (' ' :: 'i' :: 'n' :: 'e' :: 't' :: ' ' :: t)) by
        simp [str_iface6, str_iface5, str_wlan, str_inet6, List.cons_append,
          List.append_assoc]]
      exact h
    have e2 : takeWhile1 pySpace
        (' ' :: 'w' :: 'l' :: 'a' :: 'n' :: d :: (' ' :: 'i' :: 'n' :: 'e' :: 't' :: ' ' :: t)) =
        some ([' '], 'w' :: 'l' :: 'a' :: 'n' :: d :: (' ' :: 'i' :: 'n' :: 'e' :: 't' :: ' ' :: t)) :=
      takeWhile1_space_cons _ (by decide)
    have e3 : stripLit (str "wlan")
        ('w' :: 'l' :: 'a' :: 'n' :: d :: (' ' :: 'i' :: 'n' :: 'e' :: 't' :: ' ' :: t)) =
        some (d :: (' ' :: 'i' :: 'n' :: 'e' :: 't' :: ' ' :: t)) := by
      have h := stripLit_pfx (str "wlan") (d :: (' ' :: 'i' :: 'n' :: 'e' :: 't' :: ' ' :: t))
      simpa [str_wlan] using h
    simp only [schemeMatch, e1, e2, e3, hd, if_true, etail]
    simp [str_wlan, etail]

theorem wlanForm_ne_nil {i : Str} (h : wlanForm i = true) : i ≠ [] := by
  rcases wlanForm_elim h with h1 | ⟨d, _, h1⟩ <;> subst h1 <;> simp [str_wlan]

theorem stepTop_header {i n t : Str}
    (hi : wlanForm i = true) (hn : wordStr n = true) (ht : wordStr t = true) :
    stepTop (str "iface " ++ i ++ ('-' :: n) ++ str " inet " ++ t) =
      some ⟨i, n, t, []⟩ := by
  have hh : (str "iface " ++ i ++ ('-' :: n) ++ str " inet " ++ t).head? = some 'i' := by
    rw [str_iface6]
    simp
  unfold stepTop
  rw [if_neg (by rw [str_iface6]; simp)]
  rw [if_neg (by rw [hh]; decide)]
  rw [schemeMatch_header hi hn ht]
  show (if (decide (n = []) || decide (i = [])) = true then none
    else some (⟨i, n, t, []⟩ : CurBlock)) = some (⟨i, n, t, []⟩ : CurBlock)
  rw [if_neg (by simp [(wordStr_spec hn).1, wlanForm_ne_nil hi])]

theorem extractLoop_optLines (ps : List (Str × Str)) :
    ∀ (c : CurBlock), (∀ p ∈ ps, goodKey p.1 = true ∧ goodVal p.2 = true) →
    extractLoop (ps.map optLine) (some c) =
      some [⟨c.i, c.n, c.t, addAll c.opts ps⟩] := by
  induction ps with
  | nil => intro c _; rfl
  | cons p ps ih =>
    intro c hps
    have hp := hps p (by simp)
    have hline : (optLine p).head? = some ' ' := rfl
    show extractLoop (optLine p :: ps.map optLine) (some c) = _
    rw [extractLoop, if_pos hline]
    rw [processOptionLine_render hp.1 hp.2]
    show extractLoop (ps.map optLine) (some ⟨c.i, c.n, c.t, addOption c.opts p.1 p.2⟩) = _
    rw [ih ⟨c.i, c.n, c.t, addOption c.opts p.1 p.2⟩ (fun q hq => hps q (by simp [hq]))]
    rfl

theorem render_eq (s : Scheme) :
    s.render = (str "iface " ++ s.interface ++ '-' :: s.name ++ str " inet " ++ s.type) ++
      (flatPairs s.options).flatMap (fun p => '\n' :: optLine p) ++ ['\n'] := by
  unfold Scheme.render flatPairs optLine
  rw [List.flatten_eq_flatMap, List.flatMap_assoc, List.flatMap_assoc]
  simp only [List.flatMap_map, id]
  rfl

theorem pyWord_no_break {c : Char} (h : pyWord c = true) : pyBreak c = false := by
  by_contra hc
  simp only [Bool.not_eq_false] at hc
  simp only [pyBreak, Bool.or_eq_true, decide_eq_true_eq] at hc
  rcases hc with ((((((h1 | h1) | h1) | h1) | h1) | h1) | h1) | h1 <;> subst h1 <;>
    simp [pyWord, Char.isAlpha, Char.isDigit, Char.isUpper, Char.isLower] at h

/-- The keys of an options mapping in order. -/
def keysOf (o : OptDict) : List Str := o.map Prod.fst

theorem hasKey_eq_false {o : OptDict} {k : Str} (h : k ∉ keysOf o) :
    hasKey o k = false := by
  simp only [hasKey, List.any_eq_false, decide_eq_true_eq]
  intro kv hkv heq
  exact h (by simp only [keysOf, List.mem_map]; exact ⟨kv, hkv, heq⟩)

theorem addOption_fresh {o : OptDict} {k : Str} (v : Str) (h : k ∉ keysOf o) :
    addOption o k v = o ++ [(k, [v])] := by
  unfold addOption
  rw [hasKey_eq_false h]
  simp

theorem addOption_last {acc : OptDict} {k : Str} (us : List Str) (v : Str)
    (h : k ∉ keysOf acc) :
    addOption (acc ++ [(k, us)]) k v = acc ++ [(k, us ++ [v])] := by
  unfold addOption
  rw [if_pos (by simp [hasKey])]
  rw [List.map_append]
  congr 1
  · rw [show acc.map (fun kv => if kv.1 = k then (kv.1, kv.2 ++ [v]) else kv) =
        acc.map id by
      apply List.map_congr_left
      intro kv hkv
      rw [if_neg (fun heq => h (by simp only [keysOf, List.mem_map]; exact ⟨kv, hkv, heq⟩))]
      rfl]
    exact List.map_id acc
  · simp

theorem addAll_append (o : OptDict) (ps qs : List (Str × Str)) :
    addAll o (ps ++ qs) = addAll (addAll o ps) qs :=
  List.foldl_append _ _ _ _

theorem addAll_same_key (vs : List Str) : ∀ (acc : OptDict) (k : Str) (us : List Str),
    k ∉ keysOf acc →
    addAll (acc ++ [(k, us)]) (vs.map (fun v => (k, v))) = acc ++ [(k, us ++ vs)] := by
  induction vs with
  | nil => intro acc k us _; simp [addAll]
  | cons v vs ih =>
    intro acc k us h
    show addAll (addOption (acc ++ [(k, us)]) k v) (vs.map fun v => (k, v)) = _
    rw [addOption_last us v h, ih acc k (us ++ [v]) h]
    simp

theorem addAll_flatPairs : ∀ (o : OptDict) (acc : OptDict),
    (∀ kv ∈ o, kv.1 ∉ keysOf acc) → (keysOf o).Nodup →
    (∀ kv ∈ o, kv.2 ≠ []) →
    addAll acc (flatPairs o) = acc ++ o := by
  intro o
  induction o with
  | nil => intro acc _ _ _; simp [addAll, flatPairs]
  | cons kv o ih =>
    intro acc hdis hnd hne
    obtain ⟨k, vs⟩ := kv
    obtain ⟨v, vs2, rfl⟩ := List.exists_cons_of_ne_nil (hne (k, vs) (by simp) : vs ≠ [])
    have hkacc : k ∉ keysOf acc := hdis (k, v :: vs2) (by simp)
    rw [show flatPairs ((k, v :: vs2) :: o) =
        ((k, v) :: vs2.map (fun v => (k, v))) ++ flatPairs o by
      simp [flatPairs]]
    rw [addAll_append]
    rw [show addAll acc ((k, v) :: vs2.map (fun v => (k, v))) =
        addAll (acc ++ [(k, [v])]) (vs2.map (fun v => (k, v))) by
      rw [show addAll acc ((k, v) :: vs2.map (fun v => (k, v))) =
          addAll (addOption acc k v) (vs2.map (fun v => (k, v))) from rfl]
      rw [addOption_fresh v hkacc]]
    rw [addAll_same_key vs2 acc k [v] hkacc]
    have hnd2 : (keysOf o).Nodup := by
      simp only [keysOf, List.map_cons, List.nodup_cons] at hnd
      exact hnd.2
    have hknotino : k ∉ keysOf o := by
      simp only [keysOf, List.map_cons, List.nodup_cons] at hnd
      exact hnd.1
    rw [ih (acc ++ [(k, [v] ++ vs2)]) ?hdis2 hnd2 (fun kv hkv => hne kv (by simp [hkv]))]
    · simp
    case hdis2 =>
      intro kv hkv
      simp only [keysOf, List.map_append, List.mem_append, List.map_cons] at *
      rintro (hin | hin)
      · exact hdis kv (List.mem_cons_of_mem _ hkv) hin
      · simp only [List.map_nil, List.mem_cons, List.not_mem_nil, or_false] at hin
        exact hknotino (by simp only [keysOf, List.mem_map]; exact ⟨kv, hkv, hin⟩)

theorem str_4sp : str "    " = ' ' :: ' ' :: ' ' :: ' ' :: [] := rfl

theorem isDigit_word {c : Char} (h : c.isDigit = true) : pyWord c = true := by
  simp [pyWord, h]

theorem header_no_break {i n t : Str}
    (hi : wlanForm i = true) (hn : wordStr n = true) (ht : wordStr t = true) :
    ∀ c ∈ str "iface " ++ i ++ ('-' :: n) ++ str " inet " ++ t, pyBreak c = false := by
  obtain ⟨_, hnw⟩ := wordStr_spec hn
  obtain ⟨_, htw⟩ := wordStr_spec ht
  have hiw : ∀ c ∈ i, pyBreak c = false := by
    rcases wlanForm_elim hi with h1 | ⟨d, hd, h1⟩ <;> subst h1
    · intro c hc
      rw [str_wlan] at hc
      exact (by decide : ∀ c ∈ ('w' :: 'l' :: 'a' :: 'n' :: []), pyBreak c = false) c hc
    · intro c hc
      rw [str_wlan] at hc
      simp only [List.cons_append, List.nil_append, List.mem_cons,
        List.not_mem_nil, or_false] at hc
      rcases hc with h1 | h1 | h1 | h1 | h1 <;> subst h1
      · decide
      · decide
      · decide
      · decide
      · exact pyWord_no_break (isDigit_word hd)
  intro c hc
  simp only [List.mem_append, List.mem_cons] at hc
  rcases hc with (((h1 | h1) | (h1 | h1)) | h1) | h1
  · rw [str_iface6] at h1
    exact (by decide :
      ∀ c ∈ ('i' :: 'f' :: 'a' :: 'c' :: 'e' :: ' ' :: []), pyBreak c = false) c h1
  · exact hiw c h1
  · subst h1; decide
  · exact pyWord_no_break (hnw c h1)
  · rw [str_inet6] at h1
    exact (by decide :
      ∀ c ∈ (' ' :: 'i' :: 'n' :: 'e' :: 't' :: ' ' :: []), pyBreak c = false) c h1
  · exact pyWord_no_break (htw c h1)

theorem optLine_no_break {p : Str × Str}
    (hk : goodKey p.1 = true) (hv : goodVal p.2 = true) :
    ∀ c ∈ optLine p, pyBreak c = false := by
  obtain ⟨_, _, hkbr⟩ := goodKey_spec hk
  obtain ⟨_, hvbr, _, _, _⟩ := goodVal_spec hv
  intro c hc
  simp only [optLine, List.mem_append, List.mem_cons] at hc
  rcases hc with (h1 | h1) | (h1 | h1)
  · rw [str_4sp] at h1
    exact (by decide : ∀ c ∈ (' ' :: ' ' :: ' ' :: ' ' :: []), pyBreak c = false) c h1
  · exact hkbr c h1
  · subst h1; decide
  · exact hvbr c h1

theorem splitlines_lines (ps : List (Str × Str)) :
    ∀ (a : Str), (∀ c ∈ a, pyBreak c = false) →
    (∀ p ∈ ps, ∀ c ∈ optLine p, pyBreak c = false) →
    splitlines (a ++ ps.flatMap (fun p => '\n' :: optLine p) ++ ['\n']) =
      a :: ps.map optLine := by
  induction ps with
  | nil =>
    intro a ha _
    simpa using splitlines_single ha
  | cons p ps ih =>
    intro a ha hps
    rw [show a ++ ((p :: ps).flatMap (fun p => '\n' :: optLine p)) ++ ['\n'] =
        a ++ '\n' :: (optLine p ++ ps.flatMap (fun p => '\n' :: optLine p) ++ ['\n']) by
      simp [List.flatMap_cons, List.append_assoc]]
    rw [splitlines_append _ ha]
    rw [ih (optLine p) (hps p (by simp)) (fun q hq => hps q (by simp [hq]))]
    simp

theorem goodScheme_spec {s : Scheme} (h : goodScheme s = true) :
    wlanForm s.interface = true ∧ wordStr s.name = true ∧ wordStr s.type = true ∧
    s.options ≠ [] ∧ (s.options.map Prod.fst).Nodup ∧
    (∀ kv ∈ s.options, goodKey kv.1 = true ∧ kv.2 ≠ [] ∧ ∀ v ∈ kv.2, goodVal v = true) := by
  simp only [goodScheme, Bool.and_eq_true, Bool.not_eq_true', List.isEmpty_eq_false,
    decide_eq_true_eq, List.all_eq_true] at h
  obtain ⟨⟨⟨⟨⟨h1, h2⟩, h3⟩, h4⟩, h5⟩, h6⟩ := h
  refine ⟨h1, h2, h3, h4, h5, ?_⟩
  intro kv hkv
  have := h6 kv hkv
  simp only [Bool.and_eq_true, Bool.not_eq_true', List.isEmpty_eq_false,
    List.all_eq_true] at this
  exact ⟨this.1.1, this.1.2, this.2⟩

theorem flatPairs_good {s : Scheme} (h : goodScheme s = true) :
    ∀ p ∈ flatPairs s.options, goodKey p.1 = true ∧ goodVal p.2 = true := by
  obtain ⟨_, _, _, _, _, hall⟩ := goodScheme_spec h
  intro p hp
  simp only [flatPairs, List.mem_flatMap, List.mem_map] at hp
  obtain ⟨kv, hkv, v, hv, rfl⟩ := hp
  obtain ⟨hk, _, hvals⟩ := hall kv hkv
  exact ⟨hk, hvals v hv⟩

theorem extract_schemes_render {s : Scheme} (h : goodScheme s = true) :
    extract_schemes s.render = some [s] := by
  obtain ⟨hi, hn, ht, hne, hnd, hall⟩ := goodScheme_spec h
  have hpairs := flatPairs_good h
  rw [extract_schemes, render_eq]
  rw [show splitlines ((str "iface " ++ s.interface ++ '-' :: s.name ++ str " inet " ++
        s.type) ++ (flatPairs s.options).flatMap (fun p => '\n' :: optLine p) ++ ['\n']) =
      (str "iface " ++ s.interface ++ '-' :: s.name ++ str " inet " ++ s.type) ::
        (flatPairs s.options).map optLine from
    splitlines_lines _ _ (header_no_break hi hn ht)
      (fun p hp => optLine_no_break (hpairs p hp).1 (hpairs p hp).2)]
  rw [extractLoop]
  rw [stepTop_header hi hn ht]
  rw [extractLoop_optLines _ _ hpairs]
  rw [show addAll ([] : OptDict) (flatPairs s.options) = [] ++ s.options from
    addAll_flatPairs s.options [] (by simp [keysOf]) (by simpa [keysOf] using hnd)
      (fun kv hkv => (hall kv hkv).2.1)]
  rfl

theorem hasKey_iff_lookup (o : OptDict) (k : Str) :
    hasKey o k = true ↔ (lookupKey o k).isSome = true := by
  induction o with
  | nil => simp [hasKey, lookupKey]
  | cons kv o ih =>
    by_cases hk : kv.1 = k
    · simp [hasKey, lookupKey, hk]
    · simp only [hasKey, List.any_cons, Bool.or_eq_true, decide_eq_true_eq, lookupKey,
        if_neg hk, hk, false_or]
      exact ih

theorem lookupKey_map_update (o : OptDict) (k k2 : Str) (v : Str) :
    lookupKey (o.map (fun kv => if kv.1 = k2 then (kv.1, kv.2 ++ [v]) else kv)) k =
      if k = k2 then (lookupKey o k).map (fun us => us ++ [v]) else lookupKey o k := by
  induction o with
  | nil => simp [lookupKey]
  | cons kv o ih =>
    by_cases h2 : kv.1 = k2
    · by_cases h1 : kv.1 = k
      · subst h1
        rw [show lookupKey (List.map (fun kv =>
            if kv.1 = k2 then (kv.1, kv.2 ++ [v]) else kv) (kv :: o)) kv.1 =
            some (kv.2 ++ [v]) by simp [lookupKey, h2]]
        rw [if_pos h2]
        simp [lookupKey]
      · have hne : ¬k = k2 := fun he => h1 (h2.trans he.symm)
        rw [show lookupKey (List.map (fun kv =>
            if kv.1 = k2 then (kv.1, kv.2 ++ [v]) else kv) (kv :: o)) k = lookupKey
            (o.map (fun kv => if kv.1 = k2 then (kv.1, kv.2 ++ [v]) else kv)) k by
          simp [lookupKey, h2, h1, show ¬k2 = k from fun h => h1 (h2.trans h)]]
        rw [ih, if_neg hne, if_neg hne]
        simp [lookupKey, h1]
    · by_cases h1 : kv.1 = k
      · have hne : ¬k = k2 := fun he => h2 (h1.trans he)
        simp [lookupKey, h2, h1, hne]
      · rw [show lookupKey (List.map (fun kv =>
            if kv.1 = k2 then (kv.1, kv.2 ++ [v]) else kv) (kv :: o)) k = lookupKey
            (o.map (fun kv => if kv.1 = k2 then (kv.1, kv.2 ++ [v]) else kv)) k by
          simp [lookupKey, h2, h1]]
        rw [ih]
        simp [lookupKey, h1]

theorem lookupKey_append (o1 o2 : OptDict) (k : Str) :
    lookupKey (o1 ++ o2) k =
      ((lookupKey o1 k).map some).getD (lookupKey o2 k) := by
  induction o1 with
  | nil => simp [lookupKey]
  | cons kv o ih =>
    by_cases h1 : kv.1 = k
    · simp [lookupKey, h1]
    · simp only [List.cons_append, lookupKey, if_neg h1]
      exact ih

theorem lookupKey_addOption (o : OptDict) (k k2 : Str) (v : Str) :
    lookupKey (addOption o k2 v) k =
      if k = k2 then some ((lookupKey o k).getD [] ++ [v]) else lookupKey o k := by
  unfold addOption
  by_cases hk : hasKey o k2 = true
  · rw [if_pos hk, lookupKey_map_update]
    by_cases he : k = k2
    · subst he
      obtain ⟨us, hus⟩ := Option.isSome_iff_exists.mp ((hasKey_iff_lookup o k).mp hk)
      simp [hus]
    · simp [he]
  · rw [if_neg hk, lookupKey_append]
    by_cases he : k = k2
    · subst he
      have : lookupKey o k = none := by
        cases hl : lookupKey o k with
        | none => rfl
        | some us => exact absurd ((hasKey_iff_lookup o k).mpr (by simp [hl])) hk
      simp [this, lookupKey]
    · cases hl : lookupKey o k with
      | none => simp [hl, lookupKey, show ¬k2 = k from fun h => he h.symm, he]
      | some us => simp [hl, he]

theorem lookupKey_addAll (ps : List (Str × Str)) : ∀ (o : OptDict) (k : Str),
    lookupKey (addAll o ps) k =
      if valuesOf k ps = [] then lookupKey o k
      else some ((lookupKey o k).getD [] ++ valuesOf k ps) := by
  induction ps with
  | nil => intro o k; simp [addAll, valuesOf]
  | cons p ps ih =>
    intro o k
    rw [show addAll o (p :: ps) = addAll (addOption o p.1 p.2) ps from rfl]
    rw [ih]
    by_cases he : p.1 = k
    · rw [show valuesOf k (p :: ps) = p.2 :: valuesOf k ps by
        simp [valuesOf, List.filter_cons, he]]
      rw [lookupKey_addOption]
      rw [if_pos he.symm]
      by_cases hvs : valuesOf k ps = []
      · simp [hvs]
      · simp [hvs]
    · rw [show valuesOf k (p :: ps) = valuesOf k ps by
        simp [valuesOf, List.filter_cons, he]]
      rw [lookupKey_addOption]
      rw [if_neg (fun h : k = p.1 => he h.symm)]

theorem firstBound_append {pre : List Str} (ls : List Str)
    (h : ∀ l ∈ pre, boundIpOfLine l = none) :
    firstBound (pre ++ ls) = firstBound ls := by
  induction pre with
  | nil => rfl
  | cons l pre ih =>
    show firstBound (l :: (pre ++ ls)) = _
    rw [firstBound, h l (by simp)]
    exact ih (fun q hq => h q (by simp [hq]))

theorem firstBound_none {ls : List Str} (h : ∀ l ∈ ls, boundIpOfLine l = none) :
    firstBound ls = none := by
  induction ls with
  | nil => rfl
  | cons l ls ih =>
    rw [firstBound, h l (by simp)]
    exact ih (fun q hq => h q (by simp [hq]))

theorem extractLoop_isSome (ls : List Str) :
    ∀ (cur : Option CurBlock),
    (∀ l ∈ ls, l.head? = some ' ' → (processOptionLine l).isSome = true) →
    (extractLoop ls cur).isSome = true := by
  induction ls with
  | nil => intro cur _; cases cur <;> rfl
  | cons l ls ih =>
    intro cur h
    cases cur with
    | none =>
      rw [extractLoop]
      exact ih _ (fun q hq => h q (by simp [hq]))
    | some c =>
      rw [extractLoop]
      by_cases hl : l.head? = some ' '
      · rw [if_pos hl]
        obtain ⟨kv, hkv⟩ := Option.isSome_iff_exists.mp (h l (by simp) hl)
        rw [hkv]
        exact ih _ (fun q hq => h q (by simp [hq]))
      · rw [if_neg hl]
        rw [Option.isSome_map']
        exact ih _ (fun q hq => h q (by simp [hq]))

theorem extract_block {i n t : Str} (ps : List (Str × Str))
    (hi : wlanForm i = true) (hn : wordStr n = true) (ht : wordStr t = true)
    (hps : ∀ p ∈ ps, goodKey p.1 = true ∧ goodVal p.2 = true) :
    extract_schemes ((str "iface " ++ i ++ ('-' :: n) ++ str " inet " ++ t) ++
        ps.flatMap (fun p => '\n' :: optLine p) ++ ['\n']) =
      some [⟨i, n, t, addAll [] ps⟩] := by
  rw [extract_schemes]
  rw [splitlines_lines ps _ (header_no_break hi hn ht)
    (fun p hp => optLine_no_break (hps p hp).1 (hps p hp).2)]
  rw [extractLoop]
  rw [stepTop_header hi hn ht]
  rw [extractLoop_optLines _ _ hps]

theorem splitlinesGo_nobreak {l : Str} (h0 : l ≠ [])
    (h : ∀ c ∈ l, pyBreak c = false) : splitlinesGo l false = [l] := by
  induction l with
  | nil => exact absurd rfl h0
  | cons c rest ih =>
    have hc : pyBreak c = false := h c (by simp)
    have hcn : ¬c = '\n' := by intro hx; rw [hx] at hc; simp [pyBreak] at hc
    have hcr : ¬c = '\r' := by intro hx; rw [hx] at hc; simp [pyBreak] at hc
    rw [splitlinesGo, if_neg hcn, if_neg hcr, if_neg (by simp [hc])]
    cases rest with
    | nil => rfl
    | cons d rest2 =>
      rw [ih (by simp) (fun q hq => h q (by simp [hq]))]

theorem hasPfx_refl : ∀ (l : Str), hasPfx l l = true := by
  intro l
  induction l with
  | nil => rfl
  | cons c cs ih => simp [hasPfx, ih]

theorem linesKeepNL_append {b : Str} (r : Str) (hb : ∀ c ∈ b, ¬c = '\n') :
    linesKeepNL (b ++ '\n' :: r) = (b ++ ['\n']) :: linesKeepNL r := by
  induction b with
  | nil =>
    show linesKeepNL ('\n' :: r) = ['\n'] :: linesKeepNL r
    rw [linesKeepNL, if_pos rfl]
  | cons c cs ih =>
    have hc : ¬c = '\n' := hb c (by simp)
    show linesKeepNL (c :: (cs ++ '\n' :: r)) = (c :: (cs ++ ['\n'])) :: linesKeepNL r
    rw [linesKeepNL, if_neg hc, ih (fun q hq => hb q (by simp [hq]))]

theorem linesKeepNL_flatten : ∀ (ls : List Str) (rest : Str),
    (∀ l ∈ ls, ∃ b, l = b ++ ['\n'] ∧ ∀ c ∈ b, ¬c = '\n') →
    linesKeepNL (ls.flatten ++ rest) = ls ++ linesKeepNL rest := by
  intro ls
  induction ls with
  | nil => intro rest _; rfl
  | cons l ls ih =>
    intro rest h
    obtain ⟨b, rfl, hb⟩ := h l (by simp)
    rw [show ((b ++ ['\n']) :: ls).flatten ++ rest =
        b ++ '\n' :: (ls.flatten ++ rest) by simp]
    rw [linesKeepNL_append _ hb]
    rw [ih rest (fun q hq => h q (by simp [hq]))]
    rfl

theorem deleteLoop_keep {hdr : Str} : ∀ (ls : List Str) (rest : List Str),
    (∀ l ∈ ls, pstrip l = [] ∨ hasPfx (pstrip l) hdr = false) →
    deleteLoop hdr (ls ++ rest) false = ls.flatten ++ deleteLoop hdr rest false := by
  intro ls
  induction ls with
  | nil => intro rest _; rfl
  | cons l ls ih =>
    intro rest h
    show deleteLoop hdr (l :: (ls ++ rest)) false = _
    rw [deleteLoop]
    have hskip : (if pstrip l = [] then false
        else if hasPfx (pstrip l) hdr = true then true else false) = false := by
      rcases h l (by simp) with h1 | h1
      · rw [if_pos h1]
      · by_cases h0 : pstrip l = []
        · rw [if_pos h0]
        · rw [if_neg h0, if_neg (by simp [h1])]
    simp only [hskip, Bool.false_eq_true, if_false]
    rw [ih rest (fun q hq => h q (by simp [hq]))]
    simp

theorem deleteLoop_skipBlock {hdr : Str} : ∀ (ls : List Str) (rest : List Str),
    (∀ l ∈ ls, pstrip l ≠ []) →
    deleteLoop hdr (ls ++ rest) true = deleteLoop hdr rest true := by
  intro ls
  induction ls with
  | nil => intro rest _; rfl
  | cons l ls ih =>
    intro rest h
    show deleteLoop hdr (l :: (ls ++ rest)) true = _
    rw [deleteLoop]
    have hskip : (if pstrip l = [] then false
        else if hasPfx (pstrip l) hdr = true then true else true) = true := by
      rw [if_neg (h l (by simp))]
      by_cases hp : hasPfx (pstrip l) hdr = true
      · rw [if_pos hp]
      · rw [if_neg hp]
    simp only [hskip, if_true]
    rw [ih rest (fun q hq => h q (by simp [hq]))]
    rfl

theorem pstrip_blank : pstrip ['\n'] = [] := by decide

theorem deleteLoop_blank {hdr : Str} (B : List Str) :
    deleteLoop hdr (['\n'] :: B) true = '\n' :: deleteLoop hdr B false := by
  rw [deleteLoop]
  simp only [pstrip_blank, if_pos rfl]
  rfl

theorem pstrip_append_ws {a sp : Str} (hsp : ∀ c ∈ sp, pySpace c = true)
    {c d : Char} (hh : a.head? = some c) (hc : pySpace c = false)
    (hl : a.getLast? = some d) (hd : pySpace d = false) :
    pstrip (a ++ sp) = a := by
  unfold pstrip
  obtain ⟨xs, rfl⟩ : ∃ xs, a = c :: xs := by
    cases a with
    | nil => simp at hh
    | cons x xs =>
      simp only [List.head?_cons, Option.some.injEq] at hh
      exact ⟨xs, by rw [hh]⟩
  rw [show (c :: xs) ++ sp = c :: (xs ++ sp) from rfl]
  rw [List.dropWhile_cons, if_neg (by simp [hc])]
  rw [show (c :: (xs ++ sp)).reverse = sp.reverse ++ (c :: xs).reverse by
    rw [show c :: (xs ++ sp) = (c :: xs) ++ sp from rfl, List.reverse_append]]
  rw [dropWhile_append_all _ (fun q hq => hsp q (by simpa using hq))]
  rw [dropWhile_eq_self (show (c :: xs).reverse.head? = some d by
    rw [List.head?_reverse]; exact hl) hd]
  exact List.reverse_reverse _

theorem no_nl_of_no_break {l : Str} (h : ∀ c ∈ l, pyBreak c = false) :
    ∀ c ∈ l, ¬c = '\n' := by
  intro c hc he
  have := h c hc
  rw [he] at this
  simp [pyBreak] at this

theorem header_getLast {i n t : Str} (ht0 : t ≠ []) :
    (str "iface " ++ i ++ ('-' :: n) ++ str " inet " ++ t).getLast? = t.getLast? := by
  rw [List.getLast?_append]
  obtain ⟨d, hd⟩ := Option.isSome_iff_exists.mp (List.getLast?_isSome.mpr ht0)
  rw [hd]
  rfl

theorem header_head {i n t : Str} :
    (str "iface " ++ i ++ ('-' :: n) ++ str " inet " ++ t).head? = some 'i' := by
  rw [str_iface6]
  rfl

theorem pstrip_header_nl {i n t : Str} (ht : wordStr t = true) :
    pstrip ((str "iface " ++ i ++ ('-' :: n) ++ str " inet " ++ t) ++ ['\n']) =
      str "iface " ++ i ++ ('-' :: n) ++ str " inet " ++ t := by
  obtain ⟨ht0, htw⟩ := wordStr_spec ht
  obtain ⟨d, hd⟩ := Option.isSome_iff_exists.mp (List.getLast?_isSome.mpr ht0)
  have hdmem : d ∈ t := by
    obtain ⟨h0, rfl⟩ := List.mem_getLast?_eq_getLast (show d ∈ t.getLast? from hd)
    exact List.getLast_mem h0
  have hdw : pySpace d = false := pyWord_no_ws (htw d hdmem)
  exact pstrip_append_ws (by decide) header_head (by decide)
    ((header_getLast ht0).trans hd) hdw

/-- Association lookup in the directory listing: the content of the file
named `nm`, when present. -/
def lookupFile : List (Str × Str) → Str → Option Str
  | [], _ => none
  | kv :: rest, nm => if kv.1 = nm then some kv.2 else lookupFile rest nm

theorem writeDirFile_primary (st : StoreState) (nm c : Str) :
    (writeDirFile st nm c).primary = st.primary := by
  unfold writeDirFile
  split <;> rfl

theorem lookupFile_map_write (fs : List (Str × Str)) (nm c : Str)
    (h : ∃ kv ∈ fs, kv.1 = nm) :
    lookupFile (fs.map (fun kv => if kv.1 = nm then (kv.1, c) else kv)) nm = some c := by
  induction fs with
  | nil => simp at h
  | cons p fs ih =>
    by_cases hp : p.1 = nm
    · simp [lookupFile, hp]
    · rw [show List.map (fun kv => if kv.1 = nm then (kv.1, c) else kv) (p :: fs) =
          (if p.1 = nm then (p.1, c) else p) ::
            fs.map (fun kv => if kv.1 = nm then (kv.1, c) else kv) from rfl]
      rw [if_neg hp, lookupFile, if_neg hp]
      apply ih
      obtain ⟨kv, hkv, he⟩ := h
      rcases List.mem_cons.mp hkv with rfl | h2
      · exact absurd he hp
      · exact ⟨kv, h2, he⟩

theorem lookupFile_append_end (fs : List (Str × Str)) (nm c : Str)
    (h : ∀ kv ∈ fs, ¬kv.1 = nm) :
    lookupFile (fs ++ [(nm, c)]) nm = some c := by
  induction fs with
  | nil => simp [lookupFile]
  | cons p fs ih =>
    rw [List.cons_append, lookupFile, if_neg (h p (by simp))]
    exact ih (fun q hq => h q (by simp [hq]))

theorem lookupFile_write (st : StoreState) (nm c : Str) :
    lookupFile (writeDirFile st nm c).dirFiles nm = some c := by
  unfold writeDirFile
  split
  · next hany =>
    simp only [List.any_eq_true, decide_eq_true_eq] at hany
    exact lookupFile_map_write _ _ _ hany
  · next hany =>
    apply lookupFile_append_end
    intro kv hkv he
    exact hany (by
      simp only [List.any_eq_true, decide_eq_true_eq]
      exact ⟨kv, hkv, he⟩)

/-! ## Claim theorems -/

/-- C1, counterexample: the round-trip claim is false for an arbitrary
ConfigBlock with non-empty fields — the parser's header regex only accepts
interfaces matched by `wlan\d?`, so the rendered text of an `eth0` block
parses to no block at all rather than to one block equal to the input. -/
theorem c1_roundtrip_cex :
    extract_schemes (Scheme.render ⟨str "eth0", str "home", str "dhcp",
      [(str "address", [str "10.0.0.5"])]⟩) = some [] ∧
    some [] ≠ some [(⟨str "eth0", str "home", str "dhcp",
      [(str "address", [str "10.0.0.5"])]⟩ : Scheme)] :=
  ⟨by decide, by decide⟩

/-- C1 (amended): for every ConfigBlock whose interface is matched by
`wlan\d?`, whose name and type are non-empty words, and whose options
mapping is non-empty with pairwise-distinct whitespace-free keys and
non-empty well-formed values, parsing the rendered text yields exactly one
block equal to it — interface, name, type and option mapping content, with
key insertion order and per-key value order preserved. -/
theorem c1_roundtrip (s : Scheme) (h : goodScheme s = true) :
    extract_schemes s.render = some [s] :=
  extract_schemes_render h

/-- C1, witness at a concrete block with a multi-valued key. -/
theorem c1_roundtrip_witness :
    goodScheme ⟨str "wlan0", str "work", str "dhcp",
      [(str "wireless-essid", [str "MyNet"]),
       (str "post-up", [str "cmd1", str "cmd2"])]⟩ = true ∧
    extract_schemes (Scheme.render ⟨str "wlan0", str "work", str "dhcp",
      [(str "wireless-essid", [str "MyNet"]),
       (str "post-up", [str "cmd1", str "cmd2"])]⟩) =
      some [⟨str "wlan0", str "work", str "dhcp",
        [(str "wireless-essid", [str "MyNet"]),
         (str "post-up", [str "cmd1", str "cmd2"])]⟩] :=
  ⟨by decide, c1_roundtrip _ (by decide)⟩

/-- C2, counterexample: for a WEP cell and the 13-character secret
`"abcdefghijklm"`, the derived options map `"wireless-key"` to the secret
with the `"s:"` prefix added (13 is one of the ASCII key lengths
5, 13, 16, 29), not to the original secret unchanged. -/
theorem c2_wep13_cex :
    configuration (fun _ _ => []) ⟨str "HomeNet", true, str "wep"⟩
      (str "abcdefghijklm") =
      some [(str "wireless-essid", str "HomeNet"),
            (str "wireless-key", str "s:abcdefghijklm")] ∧
    str "s:abcdefghijklm" ≠ str "abcdefghijklm" :=
  ⟨by decide, by decide⟩

/-- C2 (amended): for a WEP-encrypted network and a secret of length 13,
the derived options map `"wireless-key"` to `"s:"` prepended to the
original secret (length 13 is an ASCII key length, which triggers the
prefix). -/
theorem c2_wep13_prefixed (pbkdf : Str → Str → Str) (cell : Cell) (pk : Str)
    (he : cell.encrypted = true) (ht : cell.encryption_type = str "wep")
    (hl : pk.length = 13) :
    configuration pbkdf cell pk =
      some [(str "wireless-essid", cell.ssid),
            (str "wireless-key", str "s:" ++ pk)] := by
  unfold configuration
  rw [he, if_neg (by decide)]
  rw [if_neg (by rw [ht]; decide)]
  rw [if_pos ht]
  rw [if_pos (by rw [hl]; decide)]

/-- C2, witness at a concrete WEP cell and 13-character secret. -/
theorem c2_wep13_witness :
    configuration (fun _ _ => []) ⟨str "CoffeeShop", true, str "wep"⟩
      (str "0123456789abc") =
      some [(str "wireless-essid", str "CoffeeShop"),
            (str "wireless-key", str "s:" ++ str "0123456789abc")] :=
  c2_wep13_prefixed _ _ _ rfl rfl (by decide)

/-- C3, counterexample: parsing is not total — an indented option line
inside a matched block whose stripped, whitespace-collapsed text contains
no space (a key with no value) makes the two-target unpacking of
`split(" ", 1)` raise `ValueError`, modelled as `none`. -/
theorem c3_parse_total_cex :
    extract_schemes (str "iface wlan0-x inet dhcp\n    foo") = none := by decide

/-- C3 (amended): parsing returns normally on every input text in which
each line starting with a space still contains a space after stripping and
whitespace collapsing; unmatched or malformed non-indented lines are
silently skipped.  (An indented line with no value inside a matched block
raises `ValueError` — see the counterexample.) -/
theorem c3_parse_total (text : Str)
    (h : ∀ l ∈ splitlines text, l.head? = some ' ' →
      (processOptionLine l).isSome = true) :
    (extract_schemes text).isSome = true :=
  extractLoop_isSome _ _ h

/-- C3, witness: a text with a matched block, a well-formed option line and
trailing junk parses without failure. -/
theorem c3_parse_total_witness :
    (∀ l ∈ splitlines (str "iface wlan0-x inet dhcp\n    a b\nnoise"),
      l.head? = some ' ' → (processOptionLine l).isSome = true) ∧
    (extract_schemes (str "iface wlan0-x inet dhcp\n    a b\nnoise")).isSome = true :=
  ⟨by decide, c3_parse_total _ (by decide)⟩

/-- C9: the derived activation argument list is
`"<interface>=<interface>-<name>"` followed by the pairs `"-o"`,
`"key=value"` for every key (in insertion order) and value (in per-key
order) of the options mapping. -/
theorem c9_as_args_shape (s : Scheme) :
    s.as_args = (s.interface ++ '=' :: (s.interface ++ '-' :: s.name)) ::
      (flatPairs s.options).flatMap (fun p => [str "-o", p.1 ++ '=' :: p.2]) := by
  unfold Scheme.as_args Scheme.ifaceId flatPairs
  rw [List.flatten_eq_flatMap, List.flatMap_assoc, List.flatMap_assoc]
  simp only [List.flatMap_map, id]

theorem wlanForm_no_break {i : Str} (hi : wlanForm i = true) :
    ∀ c ∈ i, pyBreak c = false := by
  rcases wlanForm_elim hi with h1 | ⟨d, hd, h1⟩ <;> subst h1
  · intro c hc
    rw [str_wlan] at hc
    exact (by decide : ∀ c ∈ ('w' :: 'l' :: 'a' :: 'n' :: []), pyBreak c = false) c hc
  · intro c hc
    rw [str_wlan] at hc
    simp only [List.cons_append, List.nil_append, List.mem_cons,
      List.not_mem_nil, or_false] at hc
    rcases hc with h1 | h1 | h1 | h1 | h1 <;> subst h1
    · decide
    · decide
    · decide
    · decide
    · exact pyWord_no_break (isDigit_word hd)

/-- C7: a header line with a type but no `-<name>` suffix — an interface
matched by `wlan\d?` followed directly by ` inet <type>` — produces no
block: the candidate is silently skipped and the result is empty. -/
theorem c7_nameless_header (i t : Str)
    (hi : wlanForm i = true) (ht : wordStr t = true) :
    extract_schemes (str "iface " ++ i ++ str " inet " ++ t) = some [] := by
  have hnb : ∀ c ∈ str "iface " ++ i ++ str " inet " ++ t, pyBreak c = false := by
    intro c hc
    simp only [List.mem_append] at hc
    rcases hc with ((h1 | h1) | h1) | h1
    · rw [str_iface6] at h1
      exact (by decide :
        ∀ c ∈ ('i' :: 'f' :: 'a' :: 'c' :: 'e' :: ' ' :: []), pyBreak c = false) c h1
    · exact wlanForm_no_break hi c h1
    · rw [str_inet6] at h1
      exact (by decide :
        ∀ c ∈ (' ' :: 'i' :: 'n' :: 'e' :: 't' :: ' ' :: []), pyBreak c = false) c h1
    · exact pyWord_no_break ((wordStr_spec ht).2 c h1)
  have h0 : str "iface " ++ i ++ str " inet " ++ t ≠ [] := by
    rw [str_iface6]
    simp
  rw [extract_schemes]
  rw [show splitlines (str "iface " ++ i ++ str " inet " ++ t) =
      [str "iface " ++ i ++ str " inet " ++ t] from splitlinesGo_nobreak h0 hnb]
  rw [extractLoop]
  rw [show stepTop (str "iface " ++ i ++ str " inet " ++ t) = none by
    unfold stepTop
    rw [if_neg h0]
    rw [if_neg (by
      rw [show (str "iface " ++ i ++ str " inet " ++ t).head? = some 'i' by
        rw [str_iface6]; rfl]
      decide)]
    rw [schemeMatch_noname hi ht]]
  rfl

/-- C7, witness: the single line `iface wlan0 inet dhcp` parses to an empty
result. -/
theorem c7_nameless_header_witness :
    extract_schemes (str "iface " ++ str "wlan0" ++ str " inet " ++ str "dhcp") =
      some [] :=
  c7_nameless_header _ _ (by decide) (by decide)

/-- C8: for a block whose indented region consists of well-formed option
lines among which the key `k` occurs `N ≥ 1` times, parsing yields exactly
one block whose options entry for `k` holds exactly the `N` values of `k`
in encounter order (accumulation, not overwrite). -/
theorem c8_repeated_key (i n t k : Str) (ps : List (Str × Str)) (N : Nat)
    (hi : wlanForm i = true) (hn : wordStr n = true) (ht : wordStr t = true)
    (hps : ∀ p ∈ ps, goodKey p.1 = true ∧ goodVal p.2 = true)
    (hcount : ps.countP (fun p => decide (p.1 = k)) = N) (hN : 1 ≤ N) :
    ∃ opts, extract_schemes ((str "iface " ++ i ++ ('-' :: n) ++ str " inet " ++ t) ++
        ps.flatMap (fun p => '\n' :: optLine p) ++ ['\n']) = some [⟨i, n, t, opts⟩] ∧
      lookupKey opts k = some (valuesOf k ps) ∧
      (valuesOf k ps).length = N := by
  refine ⟨addAll [] ps, extract_block ps hi hn ht hps, ?_, ?_⟩
  · rw [lookupKey_addAll]
    have hlen : (valuesOf k ps).length = N := by
      rw [← hcount, List.countP_eq_length_filter]
      simp [valuesOf]
    have hvne : valuesOf k ps ≠ [] := by
      intro hv
      rw [hv] at hlen
      simp at hlen
      omega
    rw [if_neg hvne]
    simp [lookupKey]
  · rw [← hcount, List.countP_eq_length_filter]
    simp [valuesOf]

/-- C8, witness: the key `k` repeated three times (with another key in
between) accumulates its three values in order. -/
theorem c8_repeated_key_witness :
    ∃ opts, extract_schemes ((str "iface " ++ str "wlan0" ++ ('-' :: str "work") ++
        str " inet " ++ str "dhcp") ++
        ([(str "post-up", str "cmd1"), (str "post-up", str "cmd2"),
          (str "dns", str "8.8.8.8"), (str "post-up", str "cmd3")] :
            List (Str × Str)).flatMap (fun p => '\n' :: optLine p) ++ ['\n']) =
      some [⟨str "wlan0", str "work", str "dhcp", opts⟩] ∧
      lookupKey opts (str "post-up") =
        some (valuesOf (str "post-up")
          [(str "post-up", str "cmd1"), (str "post-up", str "cmd2"),
           (str "dns", str "8.8.8.8"), (str "post-up", str "cmd3")]) ∧
      (valuesOf (str "post-up")
        [(str "post-up", str "cmd1"), (str "post-up", str "cmd2"),
         (str "dns", str "8.8.8.8"), (str "post-up", str "cmd3")]).length = 3 :=
  c8_repeated_key _ _ _ _ _ 3 (by decide) (by decide) (by decide) (by decide)
    (by decide) (by decide)

/-- C6: for a `"dhcp"`-type scheme, if the lines of the output (split at
`'\n'`, the positions where the multiline `^` of `bound_ip_re` can match)
contain a first line starting with the literal `"bound to "` followed by a
non-empty whitespace-free token, that token becomes the Connection's
`ip_address`; if no line starts with `"bound to "`, the call fails with
the `ConnectionError` (the spec's `NoAddressBound`) although the command
exited successfully. -/
theorem c6_dhcp_bound (s : Scheme) (hs : s.type = str "dhcp") (out : Str) :
    (∀ pre l post r,
      splitNL out = pre ++ l :: post →
      (∀ l2 ∈ pre, stripLit (str "bound to ") l2 = none) →
      stripLit (str "bound to ") l = some r →
      r.takeWhile (fun c => !pySpace c) ≠ [] →
      s.parse_ifup_output out =
        .ok ⟨s, r.takeWhile (fun c => !pySpace c)⟩) ∧
    ((∀ l ∈ splitNL out, stripLit (str "bound to ") l = none) →
      s.parse_ifup_output out = .error .connectionError) := by
  constructor
  · intro pre l post r hsplit hpre hl hr
    unfold Scheme.parse_ifup_output
    rw [if_pos hs]
    rw [show searchBoundIp out = some (r.takeWhile (fun c => !pySpace c)) by
      unfold searchBoundIp
      rw [hsplit]
      rw [firstBound_append _ (fun q hq => by unfold boundIpOfLine; rw [hpre q hq])]
      rw [firstBound]
      unfold boundIpOfLine
      rw [hl]
      simp [hr]]
  · intro hall
    unfold Scheme.parse_ifup_output
    rw [if_pos hs]
    rw [show searchBoundIp out = none from
      firstBound_none (fun q hq => by unfold boundIpOfLine; rw [hall q hq])]

/-- C6, witness: the documented example output line yields the address
`192.168.1.42`. -/
theorem c6_dhcp_bound_witness :
    Scheme.parse_ifup_output ⟨str "wlan0", str "work", str "dhcp", []⟩
      (str "Listening on LPF/wlan0\nbound to 192.168.1.42 -- renewal in 43200 seconds\n") =
      .ok ⟨⟨str "wlan0", str "work", str "dhcp", []⟩, str "192.168.1.42"⟩ := by
  have h := (c6_dhcp_bound ⟨str "wlan0", str "work", str "dhcp", []⟩ rfl
    (str "Listening on LPF/wlan0\nbound to 192.168.1.42 -- renewal in 43200 seconds\n")).1
    [str "Listening on LPF/wlan0"]
    (str "bound to 192.168.1.42 -- renewal in 43200 seconds") [[]]
    (str "192.168.1.42 -- renewal in 43200 seconds")
    (by decide) (by decide) (by decide) (by decide)
  have he : (str "192.168.1.42 -- renewal in 43200 seconds").takeWhile
      (fun c => !pySpace c) = str "192.168.1.42" := by decide
  rw [he] at h
  exact h

/-- C10: for a scheme whose type is not `"dhcp"`, `parse_ifup_output`
ignores the output entirely (the conclusion holds for every `out`): it
returns a Connection whose address is the first value of the `"address"`
option, raises `KeyError` when the option is absent, and `IndexError`
when its value list is empty — untyped lookup errors, not the classified
`ConnectionError`. -/
theorem c10_non_dhcp (s : Scheme) (hs : s.type ≠ str "dhcp") (out : Str) :
    (∀ v vs, lookupKey s.options (str "address") = some (v :: vs) →
      s.parse_ifup_output out = .ok ⟨s, v⟩) ∧
    (lookupKey s.options (str "address") = none →
      s.parse_ifup_output out = .error .keyError) ∧
    (lookupKey s.options (str "address") = some [] →
      s.parse_ifup_output out = .error .indexError) := by
  unfold Scheme.parse_ifup_output
  rw [if_neg hs]
  refine ⟨?_, ?_, ?_⟩
  · intro v vs h
    rw [h]
  · intro h
    rw [h]
  · intro h
    rw [h]

/-- C10, witness: a static scheme with an `"address"` option connects with
that address regardless of the command output. -/
theorem c10_non_dhcp_witness :
    Scheme.parse_ifup_output
      ⟨str "wlan0", str "home", str "static", [(str "address", [str "10.0.0.5"])]⟩
      (str "any output at all") =
      .ok ⟨⟨str "wlan0", str "home", str "static",
        [(str "address", [str "10.0.0.5"])]⟩, str "10.0.0.5"⟩ :=
  (c10_non_dhcp
    ⟨str "wlan0", str "home", str "static", [(str "address", [str "10.0.0.5"])]⟩
    (by decide) (str "any output at all")).1 (str "10.0.0.5") [] (by decide)

/-- A line as produced by reading a file that ends every line with a
newline: non-empty, ends in `'\n'`, and contains no interior `'\n'`. -/
def properNL (l : Str) : Bool :=
  (l.getLast? = some '\n') && l.dropLast.all (fun c => !(c = '\n'))

theorem properNL_spec {l : Str} (h : properNL l = true) :
    ∃ b, l = b ++ ['\n'] ∧ ∀ c ∈ b, ¬c = '\n' := by
  simp only [properNL, Bool.and_eq_true, decide_eq_true_eq, List.all_eq_true,
    Bool.not_eq_true'] at h
  obtain ⟨h1, h2⟩ := h
  have h0 : l ≠ [] := by intro he; rw [he] at h1; simp at h1
  refine ⟨l.dropLast, ?_, ?_⟩
  · have := List.dropLast_append_getLast h0
    rw [List.getLast?_eq_getLast l h0] at h1
    simp only [Option.some.injEq] at h1
    rw [h1] at this
    exact this.symm
  · intro c hc
    have := h2 c hc
    simp only [decide_eq_false_iff_not] at this
    exact this

theorem lookupFile_filter_self (fs : List (Str × Str)) (nm : Str) :
    lookupFile (fs.filter (fun kv => decide (kv.1 ≠ nm))) nm = none := by
  induction fs with
  | nil => rfl
  | cons p fs ih =>
    by_cases hp : p.1 = nm
    · rw [List.filter_cons, if_neg (by simp [hp])]
      exact ih
    · rw [List.filter_cons, if_pos (by simp [hp])]
      rw [lookupFile, if_neg hp]
      exact ih

theorem lookupFile_filter_other (fs : List (Str × Str)) (nm nm2 : Str)
    (h : ¬nm2 = nm) :
    lookupFile (fs.filter (fun kv => decide (kv.1 ≠ nm))) nm2 = lookupFile fs nm2 := by
  induction fs with
  | nil => rfl
  | cons p fs ih =>
    by_cases hp : p.1 = nm
    · rw [List.filter_cons, if_neg (by simp [hp])]
      rw [lookupFile, if_neg (by rw [hp]; exact fun he => h he.symm)]
      exact ih
    · rw [List.filter_cons, if_pos (by simp [hp])]
      rw [lookupFile, lookupFile]
      by_cases hq : p.1 = nm2
      · rw [if_pos hq, if_pos hq]
      · rw [if_neg hq, if_neg hq]
        exact ih

theorem deleteHdr_ne_nil (s : Scheme) : s.deleteHdr ≠ [] := by
  unfold Scheme.deleteHdr
  rw [str_iface6]
  simp

theorem deleteLoop_header (s : Scheme) (ht : wordStr s.type = true)
    (rest : List Str) :
    deleteLoop s.deleteHdr ((s.deleteHdr ++ ['\n']) :: rest) false =
      deleteLoop s.deleteHdr rest true := by
  have hps : pstrip (s.deleteHdr ++ ['\n']) = s.deleteHdr := by
    show pstrip ((str "iface " ++ s.interface ++ ('-' :: s.name) ++ str " inet " ++
      s.type) ++ ['\n']) = _
    exact pstrip_header_nl ht
  rw [deleteLoop]
  simp only [hps, if_neg (deleteHdr_ne_nil s), hasPfx_refl, if_pos rfl]
  rfl

theorem deleteLoop_keep_all {hdr : Str} (ls : List Str)
    (h : ∀ l ∈ ls, pstrip l = [] ∨ hasPfx (pstrip l) hdr = false) :
    deleteLoop hdr ls false = ls.flatten := by
  have h2 := deleteLoop_keep ls [] h
  rw [List.append_nil] at h2
  rw [h2]
  show ls.flatten ++ [] = ls.flatten
  simp

theorem deleteLoop_skip_all {hdr : Str} (ls : List Str)
    (h : ∀ l ∈ ls, pstrip l ≠ []) :
    deleteLoop hdr ls true = [] := by
  have h2 : deleteLoop hdr (ls ++ []) true = deleteLoop hdr [] true :=
    deleteLoop_skipBlock ls [] h
  rw [List.append_nil] at h2
  exact h2

/-- C4, counterexample: the claim's removed span includes the block's
trailing blank line, but the rewrite loop clears the skip flag AT the
blank line and keeps it: deleting the first of two blank-line-separated
blocks leaves a leading `'\n'` behind, so the primary file is not just the
other block's text. -/
theorem c4_delete_cex :
    Scheme.delete ⟨str "wlan0", str "work", str "dhcp", [(str "k", [str "v"])]⟩
      ⟨str "iface wlan0-work inet dhcp\n    k v\n\niface wlan0-home inet dhcp\n    k v\n",
        []⟩ =
      ⟨str "\niface wlan0-home inet dhcp\n    k v\n", []⟩ ∧
    str "\niface wlan0-home inet dhcp\n    k v\n" ≠
      str "iface wlan0-home inet dhcp\n    k v\n" :=
  ⟨by decide, by decide⟩

/-- C4 (amended): deleting a block removes its header line and the
following non-blank lines, but keeps the trailing blank line (at
end-of-file nothing remains); every other line of the primary file —
any line that is blank or whose stripped text does not start with the
block's header — is kept byte-identical, and the override-directory entry
named `<interface>-<name>` is removed while all other entries are kept. -/
theorem c4_delete_span (s : Scheme) (st st2 : StoreState)
    (hi : wlanForm s.interface = true) (hn : wordStr s.name = true)
    (ht : wordStr s.type = true)
    (A opts B : List Str)
    (hA1 : ∀ l ∈ A, properNL l = true)
    (hA2 : ∀ l ∈ A, pstrip l = [] ∨ hasPfx (pstrip l) s.deleteHdr = false)
    (ho1 : ∀ l ∈ opts, properNL l = true)
    (ho2 : ∀ l ∈ opts, pstrip l ≠ [])
    (hB1 : ∀ l ∈ B, properNL l = true)
    (hB2 : ∀ l ∈ B, pstrip l = [] ∨ hasPfx (pstrip l) s.deleteHdr = false)
    (hp : st.primary = A.flatten ++ ((s.deleteHdr ++ ['\n']) ++
      (opts.flatten ++ ('\n' :: B.flatten))))
    (hp2 : st2.primary = A.flatten ++ ((s.deleteHdr ++ ['\n']) ++ opts.flatten)) :
    (s.delete st).primary = A.flatten ++ '\n' :: B.flatten ∧
    (s.delete st2).primary = A.flatten ∧
    lookupFile (s.delete st).dirFiles s.ifaceId = none ∧
    ∀ nm, ¬nm = s.ifaceId →
      lookupFile (s.delete st).dirFiles nm = lookupFile st.dirFiles nm := by
  have hnb : ∀ c ∈ s.deleteHdr, pyBreak c = false := by
    intro c hc
    exact header_no_break hi hn ht c hc
  have hhdrnl : ∀ c ∈ s.deleteHdr, ¬c = '\n' := no_nl_of_no_break hnb
  refine ⟨?_, ?_, ?_, ?_⟩
  · show deleteContent s st.primary = _
    rw [hp]
    unfold deleteContent
    rw [linesKeepNL_flatten A _ (fun l hl => properNL_spec (hA1 l hl))]
    rw [show (s.deleteHdr ++ ['\n']) ++ (opts.flatten ++ ('\n' :: B.flatten)) =
        s.deleteHdr ++ '\n' :: (opts.flatten ++ ('\n' :: B.flatten)) by simp]
    rw [linesKeepNL_append _ hhdrnl]
    rw [linesKeepNL_flatten opts _ (fun l hl => properNL_spec (ho1 l hl))]
    rw [show linesKeepNL ('\n' :: B.flatten) = ['\n'] :: linesKeepNL B.flatten by
      rw [linesKeepNL, if_pos rfl]]
    rw [show linesKeepNL B.flatten = B by
      have h2 := linesKeepNL_flatten B [] (fun l hl => properNL_spec (hB1 l hl))
      simpa [linesKeepNL] using h2]
    rw [deleteLoop_keep A _ hA2]
    rw [deleteLoop_header s ht]
    rw [deleteLoop_skipBlock opts _ ho2]
    rw [deleteLoop_blank]
    rw [deleteLoop_keep_all B hB2]
  · show deleteContent s st2.primary = _
    rw [hp2]
    unfold deleteContent
    rw [linesKeepNL_flatten A _ (fun l hl => properNL_spec (hA1 l hl))]
    rw [show (s.deleteHdr ++ ['\n']) ++ opts.flatten =
        s.deleteHdr ++ '\n' :: opts.flatten by simp]
    rw [linesKeepNL_append _ hhdrnl]
    rw [show linesKeepNL opts.flatten = opts by
      have h2 := linesKeepNL_flatten opts [] (fun l hl => properNL_spec (ho1 l hl))
      simpa [linesKeepNL] using h2]
    rw [deleteLoop_keep A _ hA2]
    rw [deleteLoop_header s ht]
    rw [deleteLoop_skip_all opts ho2]
    simp
  · exact lookupFile_filter_self st.dirFiles s.ifaceId
  · intro nm hnm
    exact lookupFile_filter_other st.dirFiles s.ifaceId nm hnm

/-- C4, witness: a primary file with a preceding line, the target block,
a blank separator and a following block; plus the override directory
holding the target's file and another file. -/
theorem c4_delete_span_witness :
    (Scheme.delete ⟨str "wlan0", str "work", str "dhcp", []⟩
      ⟨([str "auto lo\n"] : List Str).flatten ++
        (((⟨str "wlan0", str "work", str "dhcp", []⟩ : Scheme).deleteHdr ++ ['\n']) ++
          (([str "    address 10.0.0.5\n"] : List Str).flatten ++
            ('\n' :: ([str "iface wlan0-home inet dhcp\n"] : List Str).flatten))),
        [(str "wlan0-work", str "X"), (str "wlan0-other", str "Y")]⟩).primary =
      ([str "auto lo\n"] : List Str).flatten ++
        '\n' :: ([str "iface wlan0-home inet dhcp\n"] : List Str).flatten ∧
    (Scheme.delete ⟨str "wlan0", str "work", str "dhcp", []⟩
      ⟨([str "auto lo\n"] : List Str).flatten ++
        (((⟨str "wlan0", str "work", str "dhcp", []⟩ : Scheme).deleteHdr ++ ['\n']) ++
          ([str "    address 10.0.0.5\n"] : List Str).flatten),
        []⟩).primary = ([str "auto lo\n"] : List Str).flatten ∧
    lookupFile (Scheme.delete ⟨str "wlan0", str "work", str "dhcp", []⟩
      ⟨([str "auto lo\n"] : List Str).flatten ++
        (((⟨str "wlan0", str "work", str "dhcp", []⟩ : Scheme).deleteHdr ++ ['\n']) ++
          (([str "    address 10.0.0.5\n"] : List Str).flatten ++
            ('\n' :: ([str "iface wlan0-home inet dhcp\n"] : List Str).flatten))),
        [(str "wlan0-work", str "X"), (str "wlan0-other", str "Y")]⟩).dirFiles
      (⟨str "wlan0", str "work", str "dhcp", []⟩ : Scheme).ifaceId = none ∧
    ∀ nm, ¬nm = (⟨str "wlan0", str "work", str "dhcp", []⟩ : Scheme).ifaceId →
      lookupFile (Scheme.delete ⟨str "wlan0", str "work", str "dhcp", []⟩
        ⟨([str "auto lo\n"] : List Str).flatten ++
          (((⟨str "wlan0", str "work", str "dhcp", []⟩ : Scheme).deleteHdr ++ ['\n']) ++
            (([str "    address 10.0.0.5\n"] : List Str).flatten ++
              ('\n' :: ([str "iface wlan0-home inet dhcp\n"] : List Str).flatten))),
          [(str "wlan0-work", str "X"), (str "wlan0-other", str "Y")]⟩).dirFiles nm =
        lookupFile [(str "wlan0-work", str "X"), (str "wlan0-other", str "Y")] nm :=
  c4_delete_span ⟨str "wlan0", str "work", str "dhcp", []⟩ _ _
    (by decide) (by decide) (by decide)
    [str "auto lo\n"] [str "    address 10.0.0.5\n"]
    [str "iface wlan0-home inet dhcp\n"]
    (by decide) (by decide) (by decide) (by decide) (by decide) (by decide)
    rfl rfl

/-- C5: saving a block whose (interface, name) pair is already present,
with overwriting forbidden, fails with the already-exists error and
returns no new store state (nothing is written — the raise happens before
any write); with overwriting allowed, the existing block is first deleted
(its span leaves the primary file, using the existing block's own type)
and the new block's rendered text is stored in the override-directory
file named `<interface>-<name>`. -/
theorem c5_save_duplicate (st : StoreState) (s ex : Scheme)
    (h : findScheme st s.interface s.name = some (some ex)) :
    s.save false st = .error .alreadyExists ∧
    ∃ st2, s.save true st = .ok st2 ∧
      st2.primary = deleteContent ex st.primary ∧
      lookupFile st2.dirFiles s.ifaceId = some s.render := by
  constructor
  · unfold Scheme.save
    rw [h]
    rfl
  · refine ⟨writeDirFile (ex.delete st) s.ifaceId s.render, ?_, ?_, ?_⟩
    · unfold Scheme.save
      rw [h]
      rfl
    · rw [writeDirFile_primary]
      rfl
    · exact lookupFile_write _ _ _

/-- C5, witness: a store whose primary file holds a `wlan0-work` block;
saving another `wlan0-work` block without overwrite fails, and saving
with overwrite deletes the old block and writes the rendered new one. -/
theorem c5_save_duplicate_witness :
    Scheme.save ⟨str "wlan0", str "work", str "static",
        [(str "address", [str "10.0.0.5"])]⟩ false
      ⟨str "iface wlan0-work inet dhcp\n    wireless-essid Old\n", []⟩ =
      .error .alreadyExists ∧
    ∃ st2, Scheme.save ⟨str "wlan0", str "work", str "static",
        [(str "address", [str "10.0.0.5"])]⟩ true
      ⟨str "iface wlan0-work inet dhcp\n    wireless-essid Old\n", []⟩ = .ok st2 ∧
      st2.primary = deleteContent
        ⟨str "wlan0", str "work", str "dhcp", [(str "wireless-essid", [str "Old"])]⟩
        (str "iface wlan0-work inet dhcp\n    wireless-essid Old\n") ∧
      lookupFile st2.dirFiles
        (⟨str "wlan0", str "work", str "static",
          [(str "address", [str "10.0.0.5"])]⟩ : Scheme).ifaceId =
        some (⟨str "wlan0", str "work", str "static",
          [(str "address", [str "10.0.0.5"])]⟩ : Scheme).render :=
  c5_save_duplicate
    ⟨str "iface wlan0-work inet dhcp\n    wireless-essid Old\n", []⟩
    ⟨str "wlan0", str "work", str "static", [(str "address", [str "10.0.0.5"])]⟩
    ⟨str "wlan0", str "work", str "dhcp", [(str "wireless-essid", [str "Old"])]⟩
    (by decide)

end Wifi
